import Mathlib

/-!
# gRin ring_queue: a shallow embedding of `gRin.tpp`

The C++ class template `gRin::ring_queue<T>` is a growable circular buffer.  This file embeds
its member functions as Lean functions over an explicit state record and proves properties of
the logical contents of the buffer.

Modelling conventions.

* Memory reached through a pointer or iterator (`ring`, `in`, `out`) is a function `Nat → α`
  giving the element at each offset from the pointer.  `new T[n]` yields default elements.
* `size_t` values are natural numbers.  In `push_range` the sums and differences are the
  wrapping 64-bit operations `add_sz` and `sub_sz`, because a wrapped `resize` argument
  changes what the function does; the other member functions only add and subtract where
  their guards keep the exact result between 0 and twice `max`.
* `(size_t)((double) cur_size * GROWTH_FACTOR)` is floating point arithmetic with a constant
  declared in the header; it is taken as a parameter `growth : Nat → Nat`.
* `push_range` calls itself after `resize`; the embedding carries a recursion budget and
  returns `none` when the budget is exhausted.
* The `*_steps` functions follow the control flow of the member functions and list, in
  program order, the store and input segments they copy, their subtractions and remainders,
  and their calls of `resize`.
-/

namespace gRin

variable {α : Type}

/-- The effect of `std::copy_n(src + s, count, dst + d)` on the destination memory. -/
def copy_n (src : Nat → α) (s count : Nat) (dst : Nat → α) (d : Nat) : Nat → α :=
  fun i => if d ≤ i ∧ i < d + count then src (s + (i - d)) else dst i

/-- The `count` elements of `mem` starting at offset `start`, in increasing offset order. -/
def readSeg (mem : Nat → α) (start count : Nat) : List α :=
  (List.range count).map (fun i => mem (start + i))

/-- An iterator over a finite sequence: offset `i` yields the `i`-th element. -/
def iter [Inhabited α] (S : List α) : Nat → α :=
  fun i => S.getD i default

/-- Data members of `ring_queue<T>`. -/
structure ring_queue (α : Type) where
  ring : Nat → α
  max : Nat
  bot : Nat
  top : Nat
  is_empty : Bool

/-- `ring_queue<T>::calc_new_max_size`, lines 7-13. -/
def calc_new_max_size (growth : Nat → Nat) (cur_size must_hold : Nat) : Nat :=
  if 0 = cur_size then must_hold
  else
    let newmax := growth cur_size
    if newmax < must_hold then must_hold else newmax

namespace ring_queue

/-- `ring_queue<T>::ring_queue(size_t size)`, lines 15-17. -/
def ctor [Inhabited α] (size : Nat) : ring_queue α :=
  ⟨fun _ => default, size, 0, 0, true⟩

/-- `ring_queue<T>::size`, lines 163-168. -/
def size (q : ring_queue α) : Nat :=
  if q.is_empty then 0
  else if q.bot < q.top then q.top - q.bot
  else q.max - (q.bot - q.top)

/-- `ring_queue<T>::empty`, lines 194-197. -/
def empty (q : ring_queue α) : Bool :=
  q.is_empty

/-- `ring_queue<T>::peek_range`, lines 141-161: the buffer afterwards, the destination
memory afterwards and the returned count.  No path of the method assigns a data member. -/
def peek_range (q : ring_queue α) (out : Nat → α) (num : Nat) :
    ring_queue α × (Nat → α) × Nat :=
  if 0 = num then (q, out, 0)
  else if q.is_empty then (q, out, 0)
  else if q.bot < q.top then
    let old_size := q.top - q.bot
    let num := if old_size < num then old_size else num
    let out := copy_n q.ring q.bot num out 0
    (q, out, num)
  else
    let old_size := q.max - (q.bot - q.top)
    let used_at_top := q.max - q.bot
    let num := if old_size < num then old_size else num
    let out := copy_n q.ring q.bot used_at_top out 0
    let out := copy_n q.ring 0 q.top out used_at_top
    (q, out, num)

/-- `ring_queue<T>::pull_range`, lines 107-137: the buffer afterwards, the destination memory
afterwards and the returned count. -/
def pull_range (q : ring_queue α) (out : Nat → α) (num : Nat) :
    ring_queue α × (Nat → α) × Nat :=
  if 0 = num then (q, out, 0)
  else if q.is_empty then (q, out, 0)
  else if q.bot < q.top then
    let old_size := q.top - q.bot
    let num := if old_size < num then old_size else num
    let out := copy_n q.ring q.bot num out 0
    let bot := q.bot + num
    if bot = q.top then (⟨q.ring, q.max, 0, 0, true⟩, out, num)
    else (⟨q.ring, q.max, bot, q.top, q.is_empty⟩, out, num)
  else
    let old_size := q.max - (q.bot - q.top)
    let used_at_top := q.max - q.bot
    let num := if old_size < num then old_size else num
    let out := copy_n q.ring q.bot used_at_top out 0
    let out := copy_n q.ring 0 q.top out used_at_top
    let bot := (q.bot + num) % q.max
    if bot = q.top then (⟨q.ring, q.max, 0, 0, true⟩, out, num)
    else (⟨q.ring, q.max, bot, q.top, q.is_empty⟩, out, num)

/-- `ring_queue<T>::resize`, lines 170-192: the buffer afterwards and the returned value. -/
def resize [Inhabited α] (growth : Nat → Nat) (q : ring_queue α) (fin : Nat) :
    ring_queue α × Nat :=
  if fin ≤ q.max then (q, q.max)
  else
    let new_max := calc_new_max_size growth q.max fin
    let old_size := q.size
    let new_ring : Nat → α := fun _ => default
    let new_ring :=
      if !q.is_empty then
        if q.bot < q.top then copy_n q.ring q.bot (q.top - q.bot) new_ring 0
        else
          let used_at_top := q.max - q.bot
          let new_ring := copy_n q.ring q.bot used_at_top new_ring 0
          copy_n q.ring 0 q.top new_ring used_at_top
      else new_ring
    (⟨new_ring, new_max, 0, old_size, q.is_empty⟩, new_max)

/-- The assignment `is_empty = false` on line 104, reached on every path of `push_range`
with `num != 0`, also after a recursive call returns. -/
def mark_nonempty (q : ring_queue α) : ring_queue α :=
  ⟨q.ring, q.max, q.bot, q.top, false⟩

/-- Number of values of a 64-bit `size_t`, 2 to the power 64. -/
def SIZE_MOD : Nat :=
  18446744073709551616

/-- Addition of `size_t` values, which wraps around. -/
def add_sz (a b : Nat) : Nat :=
  (a + b) % SIZE_MOD

/-- Subtraction of `size_t` values, which wraps around. -/
def sub_sz (a b : Nat) : Nat :=
  (a + SIZE_MOD - b % SIZE_MOD) % SIZE_MOD

/-- `ring_queue<T>::push_range`, lines 54-105, with the sums and differences of the body in
`size_t` arithmetic.  The first argument bounds the depth of the self-recursion; `none`
means the bound was reached. -/
def push_range [Inhabited α] (growth : Nat → Nat) :
    Nat → ring_queue α → (Nat → α) → Nat → Option (ring_queue α)
  | 0, _, _, _ => none
  | fuel + 1, q, inp, num =>
    if num = 0 then some q
    else if q.is_empty then
      if q.max ≥ num then
        some (mark_nonempty ⟨copy_n inp 0 num q.ring 0, q.max, q.bot, num, q.is_empty⟩)
      else
        (push_range growth fuel (resize growth q (add_sz q.max num)).1 inp num).map
          mark_nonempty
    else if q.bot < q.top then
      let free_at_top := sub_sz q.max q.top
      if free_at_top ≥ num then
        some (mark_nonempty ⟨copy_n inp 0 num q.ring q.top, q.max, q.bot, add_sz q.top num,
          q.is_empty⟩)
      else
        let free_elems := add_sz free_at_top q.bot
        let old_size := sub_sz q.top q.bot
        if free_elems ≥ num then
          let ring := copy_n inp 0 free_at_top q.ring q.top
          let ring := copy_n inp free_at_top (sub_sz num free_at_top) ring 0
          some (mark_nonempty ⟨ring, q.max, q.bot, sub_sz num free_at_top, q.is_empty⟩)
        else
          (push_range growth fuel (resize growth q (add_sz old_size num)).1 inp num).map
            mark_nonempty
    else
      let free_elems := sub_sz q.bot q.top
      if free_elems ≥ num then
        some (mark_nonempty ⟨copy_n inp 0 num q.ring q.top, q.max, q.bot, add_sz q.top num,
          q.is_empty⟩)
      else
        let old_size := sub_sz q.max (sub_sz q.bot q.top)
        (push_range growth fuel (resize growth q (add_sz old_size num)).1 inp num).map
          mark_nonempty

/-- `ring_queue<T>::push_back`, lines 199-202: `push_range(&val, 1)`. -/
def push_back [Inhabited α] (growth : Nat → Nat) (fuel : Nat) (q : ring_queue α) (val : α) :
    Option (ring_queue α) :=
  push_range growth fuel q (fun _ => val) 1

/-- `ring_queue<T>::ring_queue(const ring_queue<T> &)`, lines 24-34: `other` afterwards and
the constructed buffer.  Only `size` and `peek_range` are called on `other`. -/
def copy_ctor [Inhabited α] (other : ring_queue α) : ring_queue α × ring_queue α :=
  let other_size := other.size
  if other_size > 0 then
    let ring : Nat → α := fun _ => default
    let r := other.peek_range ring other_size
    (r.1, ⟨r.2.1, other_size, 0, 0, false⟩)
  else (other, ⟨fun _ => default, 0, 0, 0, true⟩)

/-- `ring_queue<T>::swap`, lines 45-52: the two buffers afterwards, `this` first. -/
def swap (self rhs : ring_queue α) : ring_queue α × ring_queue α :=
  (⟨rhs.ring, rhs.max, rhs.bot, rhs.top, rhs.is_empty⟩,
   ⟨self.ring, self.max, self.bot, self.top, self.is_empty⟩)

/-- `ring_queue<T>::operator=`, lines 36-43, for `this != &rhs`: the value of `*this`
afterwards (the local `copy` receives the old state and is destroyed). -/
def assign [Inhabited α] (self rhs : ring_queue α) : ring_queue α :=
  (swap self (copy_ctor rhs).2).1

/-- Logical contents: the elements read front to back from `bot`, wrapping at `max`, up to
`top`. -/
def contents (q : ring_queue α) : List α :=
  if q.is_empty then []
  else if q.bot < q.top then readSeg q.ring q.bot (q.top - q.bot)
  else readSeg q.ring q.bot (q.max - q.bot) ++ readSeg q.ring 0 q.top

/-- The representation invariant kept by every member function: an empty buffer has both
offsets at 0; a non-empty buffer has `bot` inside the store and `top` at most `max`. -/
structure WF (q : ring_queue α) : Prop where
  empty_norm : q.is_empty = true → q.bot = 0 ∧ q.top = 0
  bot_lt : q.is_empty = false → q.bot < q.max
  top_le : q.is_empty = false → q.top ≤ q.max

/-- Buffer states reachable from construction through the public member functions. -/
inductive Reachable [Inhabited α] (growth : Nat → Nat) : ring_queue α → Prop
  | ctor (size : Nat) : Reachable growth (ctor size)
  | copy_ctor {other : ring_queue α} : Reachable growth other →
      Reachable growth (copy_ctor other).2
  | assign {self rhs : ring_queue α} : Reachable growth self → Reachable growth rhs →
      Reachable growth (assign self rhs)
  | swap_fst {self rhs : ring_queue α} : Reachable growth self → Reachable growth rhs →
      Reachable growth (swap self rhs).1
  | swap_snd {self rhs : ring_queue α} : Reachable growth self → Reachable growth rhs →
      Reachable growth (swap self rhs).2
  | push_range {q q' : ring_queue α} (fuel : Nat) (inp : Nat → α) (num : Nat) :
      Reachable growth q → push_range growth fuel q inp num = some q' → Reachable growth q'
  | pull_range {q : ring_queue α} (out : Nat → α) (num : Nat) :
      Reachable growth q → Reachable growth (pull_range q out num).1
  | resize {q : ring_queue α} (fin : Nat) :
      Reachable growth q → Reachable growth (resize growth q fin).1

/-- Offset in the store of the `i`-th logical element of a window starting at `bot`. -/
def wrapIdx (max bot i : Nat) : Nat :=
  if bot + i < max then bot + i else bot + i - max

/-- A growth function for examples: `GROWTH_FACTOR = 2.0`. -/
def growth2 : Nat → Nat :=
  fun n => 2 * n

/-- A destination region filled with zeros. -/
def zeros : Nat → Nat :=
  fun _ => 0

/-- Example: `ring_queue(4)` after `push_range([1,2,3,4], 4)`. -/
def ex_pushed : ring_queue Nat :=
  (push_range growth2 2 (ctor 4) (iter [1, 2, 3, 4]) 4).getD (ctor 0)

/-- Example: `ex_pushed` after `pull_range(out, 2)`. -/
def ex_pulled : ring_queue Nat :=
  (pull_range ex_pushed zeros 2).1

/-- Example: `ex_pulled` after `push_range([5,6], 2)`; the window is wrapped and full. -/
def ex_wrapped : ring_queue Nat :=
  (push_range growth2 2 ex_pulled (iter [5, 6]) 2).getD (ctor 0)

/-- A step of a member function that touches memory or does arithmetic that can go wrong:
a read or write of `count` slots from offset `start` of a store allocated with `cap` slots,
a read of the input or write of the destination range, a `size_t` subtraction `a - b`, a
remainder `a % m`, or a call of `resize(fin)`. -/
inductive Step where
  | read_store (cap start count : Nat)
  | write_store (cap start count : Nat)
  | read_input (start count : Nat)
  | write_output (start count : Nat)
  | sub (a b : Nat)
  | mod (a m : Nat)
  | call_resize (fin : Nat)

/-- A step stays in bounds: a store segment ends within the store's capacity, an input
segment ends within the first `num` input elements, a subtraction does not underflow and a
remainder is not taken by 0. -/
def Step.safe (num : Nat) : Step → Bool
  | Step.read_store cap start count => decide (start + count ≤ cap)
  | Step.write_store cap start count => decide (start + count ≤ cap)
  | Step.read_input start count => decide (start + count ≤ num)
  | Step.write_output _ _ => true
  | Step.sub a b => decide (b ≤ a)
  | Step.mod _ m => decide (0 < m)
  | Step.call_resize _ => true

/-- Recognises a call of `resize`. -/
def Step.is_resize : Step → Bool
  | Step.call_resize _ => true
  | _ => false

/-- Recognises a write to a store other than one of `cap` slots. -/
def Step.writes_other_store (cap : Nat) : Step → Bool
  | Step.write_store c _ _ => decide (c ≠ cap)
  | _ => false

/-- Number of destination slots a step writes. -/
def Step.output_count : Step → Nat
  | Step.write_output _ count => count
  | _ => 0

/-- Steps of `ring_queue<T>::size`, lines 163-168. -/
def size_steps (q : ring_queue α) : List Step :=
  if q.is_empty then []
  else if q.bot < q.top then [Step.sub q.top q.bot]
  else [Step.sub q.bot q.top, Step.sub q.max (q.bot - q.top)]

/-- Steps of `ring_queue<T>::pull_range`, lines 107-137. -/
def pull_range_steps (q : ring_queue α) (num : Nat) : List Step :=
  if 0 = num then []
  else if q.is_empty then []
  else if q.bot < q.top then
    let old_size := q.top - q.bot
    let num := if old_size < num then old_size else num
    [Step.sub q.top q.bot, Step.read_store q.max q.bot num, Step.write_output 0 num]
  else
    let old_size := q.max - (q.bot - q.top)
    let used_at_top := q.max - q.bot
    let num := if old_size < num then old_size else num
    [Step.sub q.bot q.top, Step.sub q.max (q.bot - q.top), Step.sub q.max q.bot,
     Step.read_store q.max q.bot used_at_top, Step.write_output 0 used_at_top,
     Step.read_store q.max 0 q.top, Step.write_output used_at_top q.top,
     Step.mod (q.bot + num) q.max]

/-- Steps of `ring_queue<T>::peek_range`, lines 141-161. -/
def peek_range_steps (q : ring_queue α) (num : Nat) : List Step :=
  if 0 = num then []
  else if q.is_empty then []
  else if q.bot < q.top then
    let old_size := q.top - q.bot
    let num := if old_size < num then old_size else num
    [Step.sub q.top q.bot, Step.read_store q.max q.bot num, Step.write_output 0 num]
  else
    let used_at_top := q.max - q.bot
    [Step.sub q.bot q.top, Step.sub q.max (q.bot - q.top), Step.sub q.max q.bot,
     Step.read_store q.max q.bot used_at_top, Step.write_output 0 used_at_top,
     Step.read_store q.max 0 q.top, Step.write_output used_at_top q.top]

/-- Steps of `ring_queue<T>::resize`, lines 170-192. -/
def resize_steps (growth : Nat → Nat) (q : ring_queue α) (fin : Nat) : List Step :=
  if fin ≤ q.max then []
  else
    let new_max := calc_new_max_size growth q.max fin
    size_steps q ++
      (if !q.is_empty then
        if q.bot < q.top then
          [Step.sub q.top q.bot, Step.read_store q.max q.bot (q.top - q.bot),
           Step.write_store new_max 0 (q.top - q.bot)]
        else
          let used_at_top := q.max - q.bot
          [Step.sub q.max q.bot,
           Step.read_store q.max q.bot used_at_top, Step.write_store new_max 0 used_at_top,
           Step.read_store q.max 0 q.top, Step.write_store new_max used_at_top q.top]
      else [])

/-- Steps of `ring_queue<T>::push_range`, lines 54-105, performed within the recursion
budget of `push_range`: all of them when the budget suffices, otherwise those of the first
`fuel` nested calls. -/
def push_range_steps [Inhabited α] (growth : Nat → Nat) :
    Nat → ring_queue α → Nat → List Step
  | 0, _, _ => []
  | fuel + 1, q, num =>
    if num = 0 then []
    else if q.is_empty then
      if q.max ≥ num then [Step.read_input 0 num, Step.write_store q.max 0 num]
      else
        Step.call_resize (add_sz q.max num) :: resize_steps growth q (add_sz q.max num) ++
          push_range_steps growth fuel (resize growth q (add_sz q.max num)).1 num
    else if q.bot < q.top then
      let free_at_top := sub_sz q.max q.top
      if free_at_top ≥ num then
        [Step.sub q.max q.top, Step.read_input 0 num, Step.write_store q.max q.top num]
      else
        let free_elems := add_sz free_at_top q.bot
        let old_size := sub_sz q.top q.bot
        if free_elems ≥ num then
          [Step.sub q.max q.top, Step.sub q.top q.bot,
            Step.read_input 0 free_at_top, Step.write_store q.max q.top free_at_top,
            Step.sub num free_at_top,
            Step.read_input free_at_top (sub_sz num free_at_top),
            Step.write_store q.max 0 (sub_sz num free_at_top),
            Step.sub num free_at_top]
        else
          Step.sub q.max q.top :: Step.sub q.top q.bot ::
            Step.call_resize (add_sz old_size num) ::
            resize_steps growth q (add_sz old_size num) ++
            push_range_steps growth fuel (resize growth q (add_sz old_size num)).1 num
    else
      let free_elems := sub_sz q.bot q.top
      if free_elems ≥ num then
        [Step.sub q.bot q.top, Step.read_input 0 num, Step.write_store q.max q.top num]
      else
        let old_size := sub_sz q.max (sub_sz q.bot q.top)
        Step.sub q.bot q.top :: Step.sub q.bot q.top ::
          Step.sub q.max (sub_sz q.bot q.top) :: Step.call_resize (add_sz old_size num) ::
          resize_steps growth q (add_sz old_size num) ++
          push_range_steps growth fuel (resize growth q (add_sz old_size num)).1 num

/-- A step of `peek_range` seen from the copy constructor, whose destination is the new
store of `cap` slots. -/
def Step.into_store (cap : Nat) : Step → Step
  | Step.write_output start count => Step.write_store cap start count
  | s => s

/-- Steps of `ring_queue<T>::ring_queue(const ring_queue<T> &)`, lines 24-34. -/
def copy_ctor_steps (other : ring_queue α) : List Step :=
  let other_size := other.size
  size_steps other ++
    (if other_size > 0 then
      (peek_range_steps other other_size).map (Step.into_store other_size)
    else [])

end ring_queue

/-! ## Memory segments and the growth policy -/

theorem readSeg_length (mem : Nat → α) (s n : Nat) : (readSeg mem s n).length = n := by
  simp [readSeg]

theorem readSeg_getElem (mem : Nat → α) (s n i : Nat) (h : i < (readSeg mem s n).length) :
    (readSeg mem s n)[i] = mem (s + i) := by
  simp [readSeg]

theorem readSeg_congr {f g : Nat → α} {s t n : Nat} (h : ∀ i, i < n → f (s + i) = g (t + i)) :
    readSeg f s n = readSeg g t n := by
  apply List.ext_getElem
  · simp [readSeg_length]
  · intro i h1 h2
    rw [readSeg_getElem, readSeg_getElem]
    exact h i (by simpa [readSeg_length] using h1)

theorem readSeg_add (mem : Nat → α) (s a b : Nat) :
    readSeg mem s (a + b) = readSeg mem s a ++ readSeg mem (s + a) b := by
  apply List.ext_getElem
  · simp [readSeg_length]
  · intro i h1 h2
    rw [readSeg_getElem]
    by_cases hi : i < a
    · rw [List.getElem_append_left (by simpa [readSeg_length] using hi), readSeg_getElem]
    · rw [List.getElem_append_right (by simpa [readSeg_length] using hi), readSeg_getElem]
      simp only [readSeg_length]
      congr 1
      omega

theorem readSeg_zero (mem : Nat → α) (s : Nat) : readSeg mem s 0 = [] := by
  simp [readSeg]

theorem readSeg_take (mem : Nat → α) (s n k : Nat) :
    (readSeg mem s n).take k = readSeg mem s (min k n) := by
  apply List.ext_getElem
  · simp [readSeg_length]
  · intro i h1 h2
    rw [List.getElem_take, readSeg_getElem, readSeg_getElem]

theorem readSeg_drop (mem : Nat → α) (s n k : Nat) :
    (readSeg mem s n).drop k = readSeg mem (s + k) (n - k) := by
  apply List.ext_getElem
  · simp [readSeg_length]
  · intro i h1 h2
    rw [List.getElem_drop, readSeg_getElem, readSeg_getElem]
    congr 1
    omega

theorem readSeg_iter [Inhabited α] (S : List α) (num : Nat) (h : num ≤ S.length) :
    readSeg (iter S) 0 num = S.take num := by
  apply List.ext_getElem
  · simp [readSeg_length, h]
  · intro i h1 h2
    rw [readSeg_getElem, List.getElem_take]
    have hi : i < S.length := by
      simp [readSeg_length] at h1
      omega
    simp [iter, List.getElem?_eq_getElem hi]

theorem readSeg_getElem? (mem : Nat → α) (s n i : Nat) :
    (readSeg mem s n)[i]? = if i < n then some (mem (s + i)) else none := by
  unfold readSeg
  rw [List.getElem?_map]
  split_ifs with h
  · rw [List.getElem?_range h]; rfl
  · rw [List.getElem?_eq_none (by simpa using h)]; rfl

theorem calc_new_max_size_ge (growth : Nat → Nat) (cur_size must_hold : Nat) :
    must_hold ≤ calc_new_max_size growth cur_size must_hold := by
  simp only [calc_new_max_size]
  split_ifs <;> omega

theorem copy_n_apply (src : Nat → α) (s count : Nat) (dst : Nat → α) (d i : Nat) :
    copy_n src s count dst d i = if d ≤ i ∧ i < d + count then src (s + (i - d)) else dst i :=
  rfl

namespace ring_queue

/-! ## Logical contents and the member functions -/

theorem contents_getElem? (q : ring_queue α) (h : WF q) (i : Nat) :
    q.contents[i]? = if i < q.size then some (q.ring (wrapIdx q.max q.bot i)) else none := by
  obtain ⟨h1, h2, h3⟩ := h
  unfold contents size wrapIdx
  cases he : q.is_empty
  · have hb := h2 he
    have ht := h3 he
    simp only [Bool.false_eq_true, if_false]
    by_cases hw : q.bot < q.top
    · simp only [hw, if_true, readSeg_getElem?]
      split_ifs <;> first | rfl | omega
    · simp only [hw, if_false, List.getElem?_append, readSeg_getElem?, readSeg_length]
      split_ifs <;> first | rfl | omega | (congr 2; omega)
  · simp

theorem contents_length (q : ring_queue α) (h : WF q) : q.contents.length = q.size := by
  obtain ⟨h1, h2, h3⟩ := h
  unfold contents size
  cases he : q.is_empty
  · have hb := h2 he
    have ht := h3 he
    by_cases hw : q.bot < q.top
    · simp [hw, readSeg_length]
    · simp [hw, readSeg_length]; omega
  · simp

theorem size_pos_of_nonempty (q : ring_queue α) (h : WF q) (he : q.is_empty = false) :
    1 ≤ q.size := by
  have hb := h.bot_lt he
  have ht := h.top_le he
  unfold size
  simp only [he, Bool.false_eq_true, if_false]
  split_ifs <;> omega

theorem size_le_max (q : ring_queue α) (h : WF q) : q.size ≤ q.max := by
  unfold size
  cases he : q.is_empty
  · have hb := h.bot_lt he
    have ht := h.top_le he
    simp only [Bool.false_eq_true, if_false]
    split_ifs <;> omega
  · simp

theorem size_of_empty (q : ring_queue α) (he : q.is_empty = true) : q.size = 0 := by
  simp [size, he]

theorem resize_noop [Inhabited α] (growth : Nat → Nat) (q : ring_queue α) (fin : Nat)
    (hf : fin ≤ q.max) : resize growth q fin = (q, q.max) := by
  simp [resize, hf]

theorem resize_grow_fields [Inhabited α] (growth : Nat → Nat) (q : ring_queue α) (fin : Nat)
    (hf : q.max < fin) :
    (resize growth q fin).1.max = calc_new_max_size growth q.max fin ∧
    (resize growth q fin).2 = calc_new_max_size growth q.max fin ∧
    (resize growth q fin).1.bot = 0 ∧
    (resize growth q fin).1.top = q.size ∧
    (resize growth q fin).1.is_empty = q.is_empty := by
  have hf2 : ¬ fin ≤ q.max := by omega
  simp [resize, hf2]

theorem resize_grow_ring [Inhabited α] (growth : Nat → Nat) (q : ring_queue α) (h : WF q)
    (fin : Nat) (hf : q.max < fin) (i : Nat) (hi : i < q.size) :
    (resize growth q fin).1.ring i = q.ring (wrapIdx q.max q.bot i) := by
  have hf2 : ¬ fin ≤ q.max := by omega
  cases he : q.is_empty
  · have hb := h.bot_lt he
    have ht := h.top_le he
    simp only [size, he, Bool.false_eq_true, if_false] at hi
    simp only [resize, hf2, if_false, he, Bool.not_false, if_true, wrapIdx]
    by_cases hw : q.bot < q.top
    · simp only [hw, if_true, copy_n_apply] at hi ⊢
      split_ifs <;> first | rfl | omega
    · simp only [hw, if_false, copy_n_apply] at hi ⊢
      split_ifs <;> first | rfl | omega | (congr 1; omega)
  · simp [size, he] at hi

theorem resize_wf [Inhabited α] (growth : Nat → Nat) (q : ring_queue α) (h : WF q)
    (fin : Nat) : WF (resize growth q fin).1 := by
  by_cases hf : fin ≤ q.max
  · rw [resize_noop growth q fin hf]; exact h
  · have hf2 : q.max < fin := by omega
    obtain ⟨h1, _, h3, h4, h5⟩ := resize_grow_fields growth q fin hf2
    have hge := calc_new_max_size_ge growth q.max fin
    have hsz := size_le_max q h
    refine ⟨?_, ?_, ?_⟩
    · intro he
      rw [h5] at he
      rw [h3, h4, size_of_empty q he]
      exact ⟨rfl, rfl⟩
    · intro _
      rw [h3, h1]; omega
    · intro _
      rw [h4, h1]; omega

theorem resize_size [Inhabited α] (growth : Nat → Nat) (q : ring_queue α) (h : WF q)
    (fin : Nat) : (resize growth q fin).1.size = q.size := by
  by_cases hf : fin ≤ q.max
  · rw [resize_noop growth q fin hf]
  · have hf2 : q.max < fin := by omega
    obtain ⟨h1, _, h3, h4, h5⟩ := resize_grow_fields growth q fin hf2
    cases he : q.is_empty
    · have hp := size_pos_of_nonempty q h he
      rw [he] at h5
      have hsz := size_le_max q h
      have e1 : (resize growth q fin).1.size =
          if (resize growth q fin).1.bot < (resize growth q fin).1.top then
            (resize growth q fin).1.top - (resize growth q fin).1.bot
          else (resize growth q fin).1.max -
            ((resize growth q fin).1.bot - (resize growth q fin).1.top) := by
        simp [size, h5]
      rw [e1, h3, h4]
      split_ifs <;> omega
    · rw [he] at h5
      rw [size_of_empty _ h5, size_of_empty _ he]

theorem resize_max_ge [Inhabited α] (growth : Nat → Nat) (q : ring_queue α) (fin : Nat) :
    fin ≤ (resize growth q fin).1.max := by
  by_cases hf : fin ≤ q.max
  · rw [resize_noop growth q fin hf]; exact hf
  · have hf2 : q.max < fin := by omega
    rw [(resize_grow_fields growth q fin hf2).1]
    exact calc_new_max_size_ge growth q.max fin

theorem resize_contents [Inhabited α] (growth : Nat → Nat) (q : ring_queue α) (h : WF q)
    (fin : Nat) : (resize growth q fin).1.contents = q.contents := by
  by_cases hf : fin ≤ q.max
  · rw [resize_noop growth q fin hf]
  · have hf2 : q.max < fin := by omega
    have hwf := resize_wf growth q h fin
    have hs := resize_size growth q h fin
    obtain ⟨h1, _, h3, h4, h5⟩ := resize_grow_fields growth q fin hf2
    have hge := calc_new_max_size_ge growth q.max fin
    have hsz := size_le_max q h
    apply List.ext_getElem?
    intro i
    rw [contents_getElem? _ hwf, contents_getElem? _ h, hs]
    split_ifs with hi
    · rw [h3, h1]
      have : wrapIdx (calc_new_max_size growth q.max fin) 0 i = i := by
        unfold wrapIdx
        split_ifs <;> omega
      rw [this, resize_grow_ring growth q h fin hf2 i hi]
    · rfl

theorem contents_eq_append_of (q q' : ring_queue α) (h : WF q) (h' : WF q')
    (inp : Nat → α) (num : Nat) (hs : q'.size = q.size + num)
    (hlo : ∀ i, i < q.size → q'.ring (wrapIdx q'.max q'.bot i) = q.ring (wrapIdx q.max q.bot i))
    (hhi : ∀ i, i < num → q'.ring (wrapIdx q'.max q'.bot (q.size + i)) = inp i) :
    q'.contents = q.contents ++ readSeg inp 0 num := by
  apply List.ext_getElem?
  intro i
  rw [contents_getElem? _ h', List.getElem?_append, contents_getElem? _ h, readSeg_getElem?,
    contents_length _ h, hs]
  by_cases h1 : i < q.size
  · have h2 : i < q.size + num := by omega
    simp only [h1, h2, if_true]
    rw [hlo i h1]
  · simp only [h1, if_false]
    by_cases h2 : i < q.size + num
    · have h3 : i - q.size < num := by omega
      simp only [h2, h3, if_true]
      have := hhi (i - q.size) h3
      rw [show q.size + (i - q.size) = i by omega] at this
      rw [this]
      simp
    · have h3 : ¬ i - q.size < num := by omega
      simp only [h2, h3, if_false]

/-! ## `size_t` arithmetic and `push_range` -/

theorem SIZE_MOD_eq : SIZE_MOD = 18446744073709551616 :=
  rfl

theorem SIZE_MOD_eq_pow : SIZE_MOD = 2 ^ 64 := by
  norm_num [SIZE_MOD]

theorem add_sz_eq (a b : Nat) (h : a + b < SIZE_MOD) : add_sz a b = a + b :=
  Nat.mod_eq_of_lt h

theorem add_sz_le (a b : Nat) : add_sz a b ≤ a + b :=
  Nat.mod_le _ _

theorem sub_sz_eq (a b : Nat) (hb : b ≤ a) (ha : a < SIZE_MOD) : sub_sz a b = a - b := by
  unfold sub_sz
  rw [Nat.mod_eq_of_lt (show b < SIZE_MOD by omega)]
  rw [show a + SIZE_MOD - b = (a - b) + SIZE_MOD by omega, Nat.add_mod_right]
  exact Nat.mod_eq_of_lt (by omega)

theorem sub_sz_le (a b : Nat) (hb : b ≤ a) : sub_sz a b ≤ a - b := by
  simp only [sub_sz, SIZE_MOD_eq]
  omega

theorem calc_new_max_size_lt (growth : Nat → Nat) (cur_size must_hold : Nat)
    (hg : growth cur_size < SIZE_MOD) (hm : must_hold < SIZE_MOD) :
    calc_new_max_size growth cur_size must_hold < SIZE_MOD := by
  simp only [calc_new_max_size]
  split_ifs <;> omega

theorem mark_nonempty_of (q : ring_queue α) (he : q.is_empty = false) : mark_nonempty q = q := by
  cases q
  simp only [mark_nonempty] at he ⊢
  simp [he]

theorem push_range_zero [Inhabited α] (growth : Nat → Nat) (q : ring_queue α)
    (inp : Nat → α) (fuel : Nat) (hf : 1 ≤ fuel) : push_range growth fuel q inp 0 = some q := by
  obtain ⟨f, rfl⟩ : ∃ f, fuel = f + 1 := ⟨fuel - 1, by omega⟩
  simp [push_range]

theorem push_range_fit [Inhabited α] (growth : Nat → Nat) (q : ring_queue α) (h : WF q)
    (inp : Nat → α) (num : Nat) (hn : 1 ≤ num) (hfit : q.size + num ≤ q.max)
    (hm : q.max < SIZE_MOD) (fuel : Nat) :
    ∃ q', push_range growth (fuel + 1) q inp num = some q' ∧ WF q' ∧ q'.is_empty = false ∧
      q'.max = q.max ∧ q'.size = q.size + num ∧
      q'.contents = q.contents ++ readSeg inp 0 num := by
  have hn0 : ¬ num = 0 := by omega
  cases he : q.is_empty
  · have hb := h.bot_lt he
    have ht := h.top_le he
    have hsz : q.size = if q.bot < q.top then q.top - q.bot else q.max - (q.bot - q.top) := by
      simp [size, he]
    by_cases hw : q.bot < q.top
    · simp only [hw, if_true] at hsz
      have e1 : sub_sz q.max q.top = q.max - q.top := sub_sz_eq _ _ ht hm
      by_cases hc : q.max - q.top ≥ num
      · have e4 : add_sz q.top num = q.top + num := add_sz_eq _ _ (by omega)
        have hwf : WF (⟨copy_n inp 0 num q.ring q.top, q.max, q.bot, q.top + num, false⟩ :
            ring_queue α) := ⟨by simp, fun _ => hb, fun _ => by show q.top + num ≤ q.max; omega⟩
        have hs' : (⟨copy_n inp 0 num q.ring q.top, q.max, q.bot, q.top + num, false⟩ :
            ring_queue α).size = q.size + num := by
          simp only [size, he, Bool.false_eq_true, if_false]
          split_ifs <;> omega
        refine ⟨⟨copy_n inp 0 num q.ring q.top, q.max, q.bot, q.top + num, false⟩, ?_, hwf, rfl,
          rfl, hs', ?_⟩
        · simp [push_range, hn0, he, hw, e1, e4, hc, mark_nonempty]
        · apply contents_eq_append_of q _ h hwf inp num hs'
          · intro i hi
            simp only [copy_n_apply, wrapIdx]
            split_ifs <;> first | rfl | omega
          · intro i hi
            simp only [copy_n_apply, wrapIdx]
            split_ifs <;> first | rfl | omega | (congr 1; omega)
      · have hc2 : q.max - q.top + q.bot ≥ num := by omega
        have e3 : add_sz (q.max - q.top) q.bot = q.max - q.top + q.bot :=
          add_sz_eq _ _ (by omega)
        have e5 : sub_sz num (q.max - q.top) = num - (q.max - q.top) :=
          sub_sz_eq _ _ (by omega) (by omega)
        have hwf : WF (⟨copy_n inp (q.max - q.top) (num - (q.max - q.top))
            (copy_n inp 0 (q.max - q.top) q.ring q.top) 0, q.max, q.bot,
            num - (q.max - q.top), false⟩ : ring_queue α) :=
          ⟨by simp, fun _ => hb, fun _ => by show num - (q.max - q.top) ≤ q.max; omega⟩
        have hs' : (⟨copy_n inp (q.max - q.top) (num - (q.max - q.top))
            (copy_n inp 0 (q.max - q.top) q.ring q.top) 0, q.max, q.bot,
            num - (q.max - q.top), false⟩ : ring_queue α).size = q.size + num := by
          simp only [size, he, Bool.false_eq_true, if_false]
          split_ifs <;> omega
        refine ⟨⟨copy_n inp (q.max - q.top) (num - (q.max - q.top))
            (copy_n inp 0 (q.max - q.top) q.ring q.top) 0, q.max, q.bot,
            num - (q.max - q.top), false⟩, ?_, hwf, rfl, rfl, hs', ?_⟩
        · simp [push_range, hn0, he, hw, e1, e3, e5, hc, hc2, mark_nonempty]
        · apply contents_eq_append_of q _ h hwf inp num hs'
          · intro i hi
            simp only [copy_n_apply, wrapIdx]
            split_ifs <;> first | rfl | omega
          · intro i hi
            simp only [copy_n_apply, wrapIdx]
            split_ifs <;> first | rfl | omega | (congr 1; omega)
    · simp only [hw, if_false] at hsz
      have hc : q.bot - q.top ≥ num := by omega
      have e1 : sub_sz q.bot q.top = q.bot - q.top := sub_sz_eq _ _ (by omega) (by omega)
      have e4 : add_sz q.top num = q.top + num := add_sz_eq _ _ (by omega)
      have hwf : WF (⟨copy_n inp 0 num q.ring q.top, q.max, q.bot, q.top + num, false⟩ :
          ring_queue α) := ⟨by simp, fun _ => hb, fun _ => by show q.top + num ≤ q.max; omega⟩
      have hs' : (⟨copy_n inp 0 num q.ring q.top, q.max, q.bot, q.top + num, false⟩ :
          ring_queue α).size = q.size + num := by
        simp only [size, he, Bool.false_eq_true, if_false]
        split_ifs <;> omega
      refine ⟨⟨copy_n inp 0 num q.ring q.top, q.max, q.bot, q.top + num, false⟩, ?_, hwf, rfl,
        rfl, hs', ?_⟩
      · simp [push_range, hn0, he, hw, e1, e4, hc, mark_nonempty]
      · apply contents_eq_append_of q _ h hwf inp num hs'
        · intro i hi
          simp only [copy_n_apply, wrapIdx]
          split_ifs <;> first | rfl | omega
        · intro i hi
          simp only [copy_n_apply, wrapIdx]
          split_ifs <;> first | rfl | omega | (congr 1; omega)
  · obtain ⟨hb, ht⟩ := h.empty_norm he
    have hsz := size_of_empty q he
    have hc : q.max ≥ num := by omega
    have hwf : WF (⟨copy_n inp 0 num q.ring 0, q.max, q.bot, num, false⟩ : ring_queue α) :=
      ⟨by simp, fun _ => by show q.bot < q.max; omega, fun _ => by show num ≤ q.max; omega⟩
    have hs' : (⟨copy_n inp 0 num q.ring 0, q.max, q.bot, num, false⟩ : ring_queue α).size =
        q.size + num := by
      rw [hsz]
      simp only [size, Bool.false_eq_true, if_false]
      split_ifs <;> omega
    refine ⟨⟨copy_n inp 0 num q.ring 0, q.max, q.bot, num, false⟩, ?_, hwf, rfl, rfl, hs', ?_⟩
    · simp [push_range, hn0, he, hc, mark_nonempty]
    · apply contents_eq_append_of q _ h hwf inp num hs'
      · intro i hi
        omega
      · intro i hi
        simp only [copy_n_apply, wrapIdx]
        split_ifs <;> first | rfl | omega | (congr 1; omega)

theorem push_range_grow_eq [Inhabited α] (growth : Nat → Nat) (q : ring_queue α) (h : WF q)
    (inp : Nat → α) (num : Nat) (hn : 1 ≤ num) (hfit : ¬ q.size + num ≤ q.max)
    (hm : q.max + num < SIZE_MOD) (fuel : Nat) :
    ∃ fin, q.size + num ≤ fin ∧ q.max < fin ∧ fin < SIZE_MOD ∧
      push_range growth (fuel + 1) q inp num =
        (push_range growth fuel (resize growth q fin).1 inp num).map mark_nonempty := by
  have hn0 : ¬ num = 0 := by omega
  cases he : q.is_empty
  · have hb := h.bot_lt he
    have ht := h.top_le he
    have hsz : q.size = if q.bot < q.top then q.top - q.bot else q.max - (q.bot - q.top) := by
      simp [size, he]
    by_cases hw : q.bot < q.top
    · simp only [hw, if_true] at hsz
      have e1 : sub_sz q.max q.top = q.max - q.top := sub_sz_eq _ _ ht (by omega)
      have e2 : sub_sz q.top q.bot = q.top - q.bot := sub_sz_eq _ _ (by omega) (by omega)
      have e3 : add_sz (q.max - q.top) q.bot = q.max - q.top + q.bot :=
        add_sz_eq _ _ (by omega)
      have e4 : add_sz (q.top - q.bot) num = q.top - q.bot + num := add_sz_eq _ _ (by omega)
      have hc : ¬ q.max - q.top ≥ num := by omega
      have hc2 : ¬ q.max - q.top + q.bot ≥ num := by omega
      refine ⟨q.top - q.bot + num, by omega, by omega, by omega, ?_⟩
      simp only [push_range, hn0, he, hw, e1, e2, e3, e4, hc, hc2, if_false, if_true,
        Bool.false_eq_true]
    · simp only [hw, if_false] at hsz
      have e1 : sub_sz q.bot q.top = q.bot - q.top := sub_sz_eq _ _ (by omega) (by omega)
      have e2 : sub_sz q.max (q.bot - q.top) = q.max - (q.bot - q.top) :=
        sub_sz_eq _ _ (by omega) (by omega)
      have e4 : add_sz (q.max - (q.bot - q.top)) num = q.max - (q.bot - q.top) + num :=
        add_sz_eq _ _ (by omega)
      have hc : ¬ q.bot - q.top ≥ num := by omega
      refine ⟨q.max - (q.bot - q.top) + num, by omega, by omega, by omega, ?_⟩
      simp only [push_range, hn0, he, hw, e1, e2, e4, hc, if_false, Bool.false_eq_true]
  · have hsz := size_of_empty q he
    have hc : ¬ q.max ≥ num := by omega
    have e4 : add_sz q.max num = q.max + num := add_sz_eq _ _ hm
    refine ⟨q.max + num, by omega, by omega, hm, ?_⟩
    simp only [push_range, hn0, he, e4, hc, if_false, if_true]

theorem push_range_spec [Inhabited α] (growth : Nat → Nat) (q : ring_queue α) (h : WF q)
    (inp : Nat → α) (num : Nat) (hn : 1 ≤ num) (hm : q.max + num < SIZE_MOD)
    (hg : growth q.max < SIZE_MOD) (fuel : Nat) (hf : 2 ≤ fuel) :
    ∃ q', push_range growth fuel q inp num = some q' ∧ WF q' ∧ q'.is_empty = false ∧
      q'.size = q.size + num ∧ q'.contents = q.contents ++ readSeg inp 0 num ∧
      (q.size + num ≤ q.max → q'.max = q.max) ∧ q.size + num ≤ q'.max ∧
      q'.max < SIZE_MOD := by
  obtain ⟨f, rfl⟩ : ∃ f, fuel = f + 2 := ⟨fuel - 2, by omega⟩
  by_cases hfit : q.size + num ≤ q.max
  · obtain ⟨q', h1, h2, h3, h4, h5, h6⟩ :=
      push_range_fit growth q h inp num hn hfit (by omega) (f + 1)
    exact ⟨q', h1, h2, h3, h5, h6, fun _ => h4, by omega, by omega⟩
  · obtain ⟨fin, hfin, hmax, hlt, heq⟩ :=
      push_range_grow_eq growth q h inp num hn hfit hm (f + 1)
    have hwf2 := resize_wf growth q h fin
    have hs2 := resize_size growth q h fin
    have hc2 := resize_contents growth q h fin
    have hm2 := resize_max_ge growth q fin
    have hlt2 : (resize growth q fin).1.max < SIZE_MOD := by
      rw [(resize_grow_fields growth q fin hmax).1]
      exact calc_new_max_size_lt growth q.max fin hg hlt
    obtain ⟨q', h1, h2, h3, h4, h5, h6⟩ :=
      push_range_fit growth (resize growth q fin).1 hwf2 inp num hn (by omega) hlt2 f
    refine ⟨q', ?_, h2, h3, by omega, by rw [h6, hc2], fun hh => absurd hh hfit, by omega,
      by omega⟩
    rw [heq, h1, Option.map_some', mark_nonempty_of q' h3]

theorem push_range_wf_nonempty [Inhabited α] (growth : Nat → Nat) (inp : Nat → α)
    (num : Nat) (hn0 : ¬ num = 0) :
    ∀ (fuel : Nat) (q q' : ring_queue α), WF q →
      push_range growth fuel q inp num = some q' → WF q' ∧ q'.is_empty = false := by
  intro fuel
  induction fuel with
  | zero =>
    intro q q' _ hp
    simp [push_range] at hp
  | succ f ih =>
    intro q q' h hp
    have key : ∀ fin : Nat,
        (push_range growth f (resize growth q fin).1 inp num).map mark_nonempty = some q' →
        WF q' ∧ q'.is_empty = false := by
      intro fin hmap
      cases hq : push_range growth f (resize growth q fin).1 inp num with
      | none => rw [hq] at hmap; simp at hmap
      | some q2 =>
        obtain ⟨hw2, he2⟩ := ih _ q2 (resize_wf growth q h fin) hq
        rw [hq, Option.map_some', mark_nonempty_of q2 he2] at hmap
        cases hmap
        exact ⟨hw2, he2⟩
    cases he : q.is_empty
    · have hb := h.bot_lt he
      have ht := h.top_le he
      by_cases hw : q.bot < q.top
      · have a1 := sub_sz_le q.max q.top ht
        by_cases hc : sub_sz q.max q.top ≥ num
        · have a2 := add_sz_le q.top num
          simp only [push_range, hn0, he, hw, hc, if_true, if_false, Bool.false_eq_true,
            Option.some.injEq] at hp
          subst hp
          exact ⟨⟨by simp [mark_nonempty], fun _ => hb,
            fun _ => by show add_sz q.top num ≤ q.max; omega⟩, rfl⟩
        · by_cases hc2 : add_sz (sub_sz q.max q.top) q.bot ≥ num
          · have a2 := add_sz_le (sub_sz q.max q.top) q.bot
            have a3 := sub_sz_le num (sub_sz q.max q.top) (by omega)
            simp only [push_range, hn0, he, hw, hc, hc2, if_true, if_false,
              Bool.false_eq_true, Option.some.injEq] at hp
            subst hp
            exact ⟨⟨by simp [mark_nonempty], fun _ => hb,
              fun _ => by show sub_sz num (sub_sz q.max q.top) ≤ q.max; omega⟩, rfl⟩
          · simp only [push_range, hn0, he, hw, hc, hc2, if_true, if_false,
              Bool.false_eq_true] at hp
            exact key _ hp
      · have a1 := sub_sz_le q.bot q.top (by omega)
        by_cases hc : sub_sz q.bot q.top ≥ num
        · have a2 := add_sz_le q.top num
          simp only [push_range, hn0, he, hw, hc, if_true, if_false, Bool.false_eq_true,
            Option.some.injEq] at hp
          subst hp
          exact ⟨⟨by simp [mark_nonempty], fun _ => hb,
            fun _ => by show add_sz q.top num ≤ q.max; omega⟩, rfl⟩
        · simp only [push_range, hn0, he, hw, hc, if_true, if_false,
            Bool.false_eq_true] at hp
          exact key _ hp
    · obtain ⟨hb, ht⟩ := h.empty_norm he
      by_cases hc : q.max ≥ num
      · simp only [push_range, hn0, he, hc, if_true, if_false, Option.some.injEq] at hp
        subst hp
        exact ⟨⟨by simp [mark_nonempty], fun _ => by show q.bot < q.max; omega,
          fun _ => by show num ≤ q.max; omega⟩, rfl⟩
      · simp only [push_range, hn0, he, hc, if_true, if_false] at hp
        exact key _ hp

theorem push_range_wf [Inhabited α] (growth : Nat → Nat) (q q' : ring_queue α) (h : WF q)
    (inp : Nat → α) (num fuel : Nat) (hp : push_range growth fuel q inp num = some q') :
    WF q' := by
  by_cases hn0 : num = 0
  · subst hn0
    cases fuel with
    | zero => simp [push_range] at hp
    | succ f =>
      rw [push_range_zero growth q inp (f + 1) (by omega)] at hp
      cases hp
      exact h
  · exact (push_range_wf_nonempty growth inp num hn0 fuel q q' h hp).1

theorem push_range_succ [Inhabited α] (growth : Nat → Nat) (inp : Nat → α) (num : Nat) :
    ∀ (fuel : Nat) (q q' : ring_queue α), push_range growth fuel q inp num = some q' →
      push_range growth (fuel + 1) q inp num = some q' := by
  intro fuel
  induction fuel with
  | zero =>
    intro q q' hp
    simp [push_range] at hp
  | succ f ih =>
    intro q q' hp
    have key : ∀ fin : Nat,
        (push_range growth f (resize growth q fin).1 inp num).map mark_nonempty = some q' →
        (push_range growth (f + 1) (resize growth q fin).1 inp num).map mark_nonempty =
          some q' := by
      intro fin hm
      cases hq : push_range growth f (resize growth q fin).1 inp num with
      | none => rw [hq] at hm; simp at hm
      | some q2 =>
        rw [hq] at hm
        rw [ih _ q2 hq]
        exact hm
    rw [push_range] at hp ⊢
    dsimp only at hp ⊢
    split_ifs at hp ⊢
    all_goals first | exact hp | exact key _ hp

theorem push_range_fuel_irrelevant [Inhabited α] (growth : Nat → Nat) (inp : Nat → α)
    (num : Nat) (q q' : ring_queue α) (f : Nat)
    (hp : push_range growth f q inp num = some q') :
    ∀ k, push_range growth (f + k) q inp num = some q' := by
  intro k
  induction k with
  | zero => exact hp
  | succ k ih => exact push_range_succ growth inp num (f + k) q q' ih

/-- Without the bound on `max + num` the recursion need not end: on `ring_queue(1)` with
`num = SIZE_MAX` the sum `max + num` wraps to 0, `resize(0)` changes nothing, and the call
repeats itself on the same state, exhausting every recursion budget. -/
theorem push_range_wraps_forever [Inhabited α] (growth : Nat → Nat) (inp : Nat → α)
    (fuel : Nat) :
    push_range growth fuel (ctor 1 : ring_queue α) inp (SIZE_MOD - 1) = none := by
  induction fuel with
  | zero => rfl
  | succ f ih =>
    have hS := SIZE_MOD_eq
    have hmax : (ctor 1 : ring_queue α).max = 1 := rfl
    have e1 : add_sz (ctor 1 : ring_queue α).max (SIZE_MOD - 1) = 0 := by
      rw [hmax, add_sz, show 1 + (SIZE_MOD - 1) = SIZE_MOD by omega, Nat.mod_self]
    have e2 : (resize growth (ctor 1 : ring_queue α) 0).1 = ctor 1 := by
      rw [resize_noop growth _ 0 (Nat.zero_le _)]
    have hn0 : ¬ SIZE_MOD - 1 = 0 := by omega
    have hc : ¬ (ctor 1 : ring_queue α).max ≥ SIZE_MOD - 1 := by
      rw [hmax]
      omega
    have he : (ctor 1 : ring_queue α).is_empty = true := rfl
    rw [push_range]
    simp only [hn0, he, hc, if_true, if_false, e1, e2, ih, Option.map_none']

theorem mod_eq_wrapIdx (max bot k : Nat) (hb : bot < max) (hk : k ≤ max) :
    (bot + k) % max = wrapIdx max bot k := by
  unfold wrapIdx
  split_ifs with h
  · exact Nat.mod_eq_of_lt h
  · rw [Nat.mod_eq_sub_mod (by omega)]
    exact Nat.mod_eq_of_lt (by omega)

theorem peek_range_state (q : ring_queue α) (out : Nat → α) (num : Nat) :
    (peek_range q out num).1 = q := by
  unfold peek_range
  split_ifs <;> rfl

theorem peek_range_count (q : ring_queue α) (out : Nat → α) (num : Nat) :
    (peek_range q out num).2.2 = min num q.size := by
  unfold peek_range size
  by_cases hn : 0 = num
  · simp [hn.symm]
  · cases he : q.is_empty
    · by_cases hw : q.bot < q.top
      · simp only [hn, hw, if_true, if_false, Bool.false_eq_true]
        split_ifs <;> omega
      · simp only [hn, hw, if_false, Bool.false_eq_true]
        split_ifs <;> omega
    · simp [hn]

theorem pull_range_out_count (q : ring_queue α) (out : Nat → α) (num : Nat) :
    (pull_range q out num).2 = (peek_range q out num).2 := by
  unfold pull_range peek_range
  by_cases hn : 0 = num
  · simp [hn.symm]
  · cases he : q.is_empty
    · by_cases hw : q.bot < q.top
      · simp only [hn, hw, if_true, if_false, Bool.false_eq_true]
        split_ifs <;> rfl
      · simp only [hn, hw, if_false, Bool.false_eq_true]
        split_ifs <;> rfl
    · simp [hn]

/-- Number of destination slots `peek_range` and `pull_range` write. -/
theorem peek_range_out (q : ring_queue α) (h : WF q) (out : Nat → α) (num i : Nat) :
    (peek_range q out num).2.1 i =
      if i < (if num = 0 ∨ q.is_empty = true then 0
              else if q.bot < q.top then min num q.size else q.size)
      then q.ring (wrapIdx q.max q.bot i) else out i := by
  unfold peek_range size wrapIdx
  by_cases hn : 0 = num
  · simp [hn.symm]
  · have hn2 : ¬ num = 0 := by omega
    cases he : q.is_empty
    · have hb := h.bot_lt he
      have ht := h.top_le he
      by_cases hw : q.bot < q.top
      · simp only [hn, hn2, hw, if_true, if_false, Bool.false_eq_true, false_or, copy_n_apply]
        split_ifs <;> first | rfl | omega
      · simp only [hn, hn2, hw, if_false, Bool.false_eq_true, false_or, copy_n_apply]
        split_ifs <;> first | rfl | omega | (congr 1; omega)
    · simp [hn]

theorem peek_range_take (q : ring_queue α) (h : WF q) (out : Nat → α) (num : Nat) :
    readSeg (peek_range q out num).2.1 0 (min num q.size) =
      q.contents.take (min num q.size) := by
  apply List.ext_getElem?
  intro i
  rw [readSeg_getElem?, List.getElem?_take, contents_getElem? _ h, peek_range_out q h,
    Nat.zero_add]
  have hpos : q.is_empty = true → q.size = 0 := size_of_empty q
  cases he : q.is_empty
  · simp only [Bool.false_eq_true, or_false]
    split_ifs <;> first | rfl | omega
  · have := hpos he
    have h0 : ¬ i < min num q.size := by omega
    simp [h0]

theorem pull_range_state (q : ring_queue α) (h : WF q) (out : Nat → α) (num : Nat)
    (hn : 1 ≤ num) (he : q.is_empty = false) :
    (pull_range q out num).1 =
      if min num q.size = q.size then ⟨q.ring, q.max, 0, 0, true⟩
      else ⟨q.ring, q.max, wrapIdx q.max q.bot (min num q.size), q.top, false⟩ := by
  have hn0 : ¬ 0 = num := by omega
  have hb := h.bot_lt he
  have ht := h.top_le he
  by_cases hw : q.bot < q.top
  · have hsz : q.size = q.top - q.bot := by simp [size, he, hw]
    rw [hsz]
    simp only [pull_range, hn0, he, hw, if_true, if_false, Bool.false_eq_true]
    by_cases hc : q.top - q.bot < num
    · have e1 : min num (q.top - q.bot) = q.top - q.bot := by omega
      have e2 : q.bot + (q.top - q.bot) = q.top := by omega
      simp [hc, e1, e2]
    · have e1 : min num (q.top - q.bot) = num := by omega
      simp only [hc, if_false, e1]
      by_cases hc2 : q.bot + num = q.top
      · have e3 : num = q.top - q.bot := by omega
        have e2 : q.bot + (q.top - q.bot) = q.top := by omega
        simp [e3, e2]
      · have e3 : ¬ num = q.top - q.bot := by omega
        have e4 : wrapIdx q.max q.bot num = q.bot + num := by
          unfold wrapIdx
          split_ifs <;> omega
        simp [hc2, e3, e4, he]
  · have hsz : q.size = q.max - (q.bot - q.top) := by simp [size, he, hw]
    rw [hsz]
    simp only [pull_range, hn0, he, hw, if_true, if_false, Bool.false_eq_true]
    by_cases hc : q.max - (q.bot - q.top) < num
    · have e1 : min num (q.max - (q.bot - q.top)) = q.max - (q.bot - q.top) := by omega
      have e2 : (q.bot + (q.max - (q.bot - q.top))) % q.max = q.top := by
        rw [mod_eq_wrapIdx _ _ _ hb (by omega)]
        unfold wrapIdx
        split_ifs <;> omega
      simp [hc, e1, e2]
    · have e1 : min num (q.max - (q.bot - q.top)) = num := by omega
      have e2 : (q.bot + num) % q.max = wrapIdx q.max q.bot num :=
        mod_eq_wrapIdx _ _ _ hb (by omega)
      simp only [hc, if_false, e1, e2]
      by_cases hc2 : num = q.max - (q.bot - q.top)
      · have e3 : wrapIdx q.max q.bot num = q.top := by
          unfold wrapIdx
          split_ifs <;> omega
        simp [hc2, e3]
        rw [← hc2, e3]
        simp
      · have e3 : ¬ wrapIdx q.max q.bot num = q.top := by
          unfold wrapIdx
          split_ifs <;> omega
        simp [hc2, e3, he]

theorem pull_range_noop (q : ring_queue α) (out : Nat → α) (num : Nat)
    (hz : num = 0 ∨ q.is_empty = true) : pull_range q out num = (q, out, 0) := by
  unfold pull_range
  rcases hz with hz | hz
  · simp [hz]
  · simp [hz]

theorem pull_range_spec (q : ring_queue α) (h : WF q) (out : Nat → α) (num : Nat) :
    WF (pull_range q out num).1 ∧
    (pull_range q out num).1.size = q.size - min num q.size ∧
    (pull_range q out num).1.contents = q.contents.drop (min num q.size) ∧
    (pull_range q out num).1.max = q.max := by
  by_cases hz : num = 0 ∨ q.is_empty = true
  · rw [pull_range_noop q out num hz]
    have hm : min num q.size = 0 := by
      rcases hz with hz | hz
      · simp [hz]
      · simp [size_of_empty q hz]
    rw [hm]
    exact ⟨h, rfl, rfl, rfl⟩
  · have hn : 1 ≤ num := by omega
    have he : q.is_empty = false := by
      cases hq : q.is_empty
      · rfl
      · exact absurd (Or.inr hq) hz
    have hb := h.bot_lt he
    have ht := h.top_le he
    have hp := size_pos_of_nonempty q h he
    have hsm := size_le_max q h
    have hsz : q.size = if q.bot < q.top then q.top - q.bot else q.max - (q.bot - q.top) := by
      simp [size, he]
    rw [pull_range_state q h out num hn he]
    by_cases hall : min num q.size = q.size
    · simp only [hall, if_true]
      refine ⟨⟨fun _ => ⟨rfl, rfl⟩, by simp, by simp⟩, by simp [size], ?_, trivial⟩
      rw [← contents_length q h, List.drop_length]
      simp [contents]
    · simp only [hall, if_false]
      have hk : min num q.size < q.size := by omega
      have hwf : WF (⟨q.ring, q.max, wrapIdx q.max q.bot (min num q.size), q.top, false⟩ :
          ring_queue α) := by
        refine ⟨by simp, fun _ => ?_, fun _ => ht⟩
        show wrapIdx q.max q.bot (min num q.size) < q.max
        unfold wrapIdx
        split_ifs <;> omega
      have hs' : (⟨q.ring, q.max, wrapIdx q.max q.bot (min num q.size), q.top, false⟩ :
          ring_queue α).size = q.size - min num q.size := by
        simp only [size, Bool.false_eq_true, if_false, he]
        unfold wrapIdx
        split_ifs at hsz ⊢ <;> omega
      refine ⟨hwf, hs', ?_, trivial⟩
      apply List.ext_getElem?
      intro i
      rw [contents_getElem? _ hwf, List.getElem?_drop, contents_getElem? _ h, hs']
      have e : wrapIdx q.max (wrapIdx q.max q.bot (min num q.size)) i =
          wrapIdx q.max q.bot (min num q.size + i) ∨ ¬ i < q.size - min num q.size := by
        unfold wrapIdx
        split_ifs <;> omega
      split_ifs <;> first | rfl | omega | skip
      rcases e with e | e
      · show some (q.ring (wrapIdx q.max (wrapIdx q.max q.bot (min num q.size)) i)) = _
        rw [e]
      · omega

theorem ctor_wf [Inhabited α] (size : Nat) : WF (ctor size : ring_queue α) :=
  ⟨fun _ => ⟨rfl, rfl⟩, by simp [ctor], by simp [ctor]⟩

theorem copy_ctor_empty [Inhabited α] (other : ring_queue α) (hs : other.size = 0) :
    copy_ctor other = (other, ⟨fun _ => default, 0, 0, 0, true⟩) := by
  simp [copy_ctor, hs]

theorem copy_ctor_nonempty [Inhabited α] (other : ring_queue α) (hs : 0 < other.size) :
    copy_ctor other =
      (other,
        ⟨(other.peek_range (fun _ => default) other.size).2.1, other.size, 0, 0, false⟩) := by
  simp [copy_ctor, hs, peek_range_state]

theorem copy_ctor_spec [Inhabited α] (other : ring_queue α) (h : WF other) :
    WF (copy_ctor other).2 ∧ (copy_ctor other).2.size = other.size ∧
    (copy_ctor other).2.contents = other.contents := by
  by_cases hs : other.size = 0
  · rw [copy_ctor_empty other hs]
    refine ⟨⟨fun _ => ⟨rfl, rfl⟩, by simp, by simp⟩, by rw [hs]; rfl, ?_⟩
    have hl := contents_length other h
    rw [hs] at hl
    rw [List.length_eq_zero.mp hl]
    simp [contents]
  · have hs2 : 0 < other.size := by omega
    have he : other.is_empty = false := by
      cases hq : other.is_empty
      · rfl
      · exact absurd (size_of_empty other hq) hs
    rw [copy_ctor_nonempty other hs2]
    have hwf : WF (⟨(other.peek_range (fun _ => default) other.size).2.1, other.size, 0, 0,
        false⟩ : ring_queue α) := ⟨by simp, fun _ => hs2, fun _ => Nat.zero_le _⟩
    have hs' : (⟨(other.peek_range (fun _ => default) other.size).2.1, other.size, 0, 0,
        false⟩ : ring_queue α).size = other.size := by
      rw [size]
      simp
    refine ⟨hwf, hs', ?_⟩
    apply List.ext_getElem?
    intro i
    rw [contents_getElem? _ hwf, contents_getElem? _ h, hs']
    split_ifs with hi
    · have e : wrapIdx other.size 0 i = i := by
        unfold wrapIdx
        split_ifs <;> omega
      show some ((other.peek_range (fun _ => default) other.size).2.1
        (wrapIdx other.size 0 i)) = _
      rw [e, peek_range_out other h]
      have hw : i < (if other.size = 0 ∨ other.is_empty = true then 0
          else if other.bot < other.top then min other.size other.size else other.size) := by
        simp only [hs, he, Bool.false_eq_true, or_self, if_false, Nat.min_self]
        split_ifs <;> exact hi
      rw [if_pos hw]
    · rfl

theorem swap_wf (self rhs : ring_queue α) (h1 : WF self) (h2 : WF rhs) :
    WF (swap self rhs).1 ∧ WF (swap self rhs).2 :=
  ⟨⟨h2.empty_norm, h2.bot_lt, h2.top_le⟩, ⟨h1.empty_norm, h1.bot_lt, h1.top_le⟩⟩

theorem Reachable.wf [Inhabited α] {growth : Nat → Nat} {q : ring_queue α}
    (hr : Reachable growth q) : WF q := by
  induction hr with
  | ctor size => exact ctor_wf size
  | copy_ctor _ ih => exact (copy_ctor_spec _ ih).1
  | assign _ _ _ ih2 => exact (swap_wf _ _ (by assumption) (copy_ctor_spec _ ih2).1).1
  | swap_fst _ _ ih1 ih2 => exact (swap_wf _ _ ih1 ih2).1
  | swap_snd _ _ ih1 ih2 => exact (swap_wf _ _ ih1 ih2).2
  | push_range fuel inp num _ hp ih => exact push_range_wf growth _ _ ih inp num fuel hp
  | pull_range out num _ ih => exact (pull_range_spec _ ih out num).1
  | resize fin _ ih => exact resize_wf growth _ ih fin

theorem ex_pushed_eq : push_range growth2 2 (ctor 4) (iter [1, 2, 3, 4]) 4 = some ex_pushed := rfl

theorem ex_wrapped_eq : push_range growth2 2 ex_pulled (iter [5, 6]) 2 = some ex_wrapped := rfl

theorem ex_wrapped_reachable : Reachable growth2 ex_wrapped :=
  Reachable.push_range 2 (iter [5, 6]) 2
    (Reachable.pull_range zeros 2 (Reachable.push_range 2 (iter [1, 2, 3, 4]) 4 (Reachable.ctor 4) ex_pushed_eq))
    ex_wrapped_eq

theorem size_max_pos : 1 ≤ SIZE_MOD - 1 := by
  rw [SIZE_MOD_eq]
  omega

/-- C1, as stated, fails: `ring_queue(1)` is reachable, `num = SIZE_MAX >= 1`, the input
sequence has `num` elements, and `push_range(in, num)` returns no state within any
recursion budget (`max + num` wraps to 0 and the call repeats itself without end). -/
theorem push_range_never_returns_on_overflow :
    Reachable growth2 (ctor 1 : ring_queue Nat) ∧ 1 ≤ SIZE_MOD - 1 ∧
    SIZE_MOD - 1 ≤ (List.replicate (SIZE_MOD - 1) 0).length ∧
    ∀ fuel, push_range growth2 fuel (ctor 1 : ring_queue Nat)
      (iter (List.replicate (SIZE_MOD - 1) 0)) (SIZE_MOD - 1) = none :=
  ⟨Reachable.ctor 1, size_max_pos, by rw [List.length_replicate],
    fun fuel => push_range_wraps_forever growth2 _ fuel⟩

/-- C1, amended: on every reachable buffer, `push_range(in, num)` with `num >= 1`, with
`max + num` not overflowing `size_t` and the scaled capacity a `size_t` value, and with an
input sequence of at least `num` elements returns (with recursion budget 2 or more) a buffer
whose logical contents are the previous contents followed by the first `num` input elements,
with `is_empty` false; with `num = 0` the buffer is returned unchanged. -/
theorem push_range_appends [Inhabited α] (growth : Nat → Nat) (q : ring_queue α)
    (hr : Reachable growth q) (S : List α) (num : Nat) (hn : 1 ≤ num) (hS : num ≤ S.length)
    (hm : q.max + num < SIZE_MOD) (hg : growth q.max < SIZE_MOD)
    (fuel : Nat) (hf : 2 ≤ fuel) :
    (∃ q', push_range growth fuel q (iter S) num = some q' ∧
      q'.contents = q.contents ++ S.take num ∧ q'.is_empty = false) ∧
    push_range growth fuel q (iter S) 0 = some q := by
  obtain ⟨q', h1, _, h3, _, h5, _⟩ :=
    push_range_spec growth q hr.wf (iter S) num hn hm hg fuel hf
  refine ⟨⟨q', h1, ?_, h3⟩, push_range_zero growth q (iter S) fuel (by omega)⟩
  rw [h5, readSeg_iter S num hS]

theorem push_range_appends_witness :
    (∃ q', push_range growth2 2 ex_wrapped (iter [7, 8, 9]) 3 = some q' ∧
      q'.contents = ex_wrapped.contents ++ [7, 8, 9].take 3 ∧ q'.is_empty = false) ∧
    push_range growth2 2 ex_wrapped (iter [7, 8, 9]) 0 = some ex_wrapped :=
  push_range_appends growth2 ex_wrapped ex_wrapped_reachable [7, 8, 9] 3 (by decide)
    (by decide) (by decide) (by decide) 2 (by decide)

/-- C2: on every reachable buffer with logical contents `L`, `pull_range(out, num)` with
`k = min(num, |L|)` leaves the first `k` elements of `L`, in order, in `out[0..k)`, and the
buffer's logical contents afterwards are `L` without its first `k` elements. -/
theorem pull_range_front [Inhabited α] (growth : Nat → Nat) (q : ring_queue α)
    (hr : Reachable growth q) (out : Nat → α) (num : Nat) :
    readSeg (pull_range q out num).2.1 0 (min num q.contents.length) =
      q.contents.take (min num q.contents.length) ∧
    (pull_range q out num).1.contents = q.contents.drop (min num q.contents.length) := by
  have h := hr.wf
  rw [contents_length q h, pull_range_out_count]
  exact ⟨peek_range_take q h out num, (pull_range_spec q h out num).2.2.1⟩

theorem pull_range_front_witness :
    readSeg (pull_range ex_wrapped zeros 3).2.1 0 (min 3 ex_wrapped.contents.length) =
      ex_wrapped.contents.take (min 3 ex_wrapped.contents.length) ∧
    (pull_range ex_wrapped zeros 3).1.contents =
      ex_wrapped.contents.drop (min 3 ex_wrapped.contents.length) :=
  pull_range_front growth2 ex_wrapped ex_wrapped_reachable zeros 3

/-- C4, as stated, fails: with initial capacity 1 and a sequence `S` of `SIZE_MAX` elements,
`push_range(S, |S|)` on `ring_queue(1)` returns no state within any recursion budget, so
nothing is pulled back. -/
theorem round_trip_fails_on_overflow :
    (List.replicate (SIZE_MOD - 1) 0).length = SIZE_MOD - 1 ∧
    ∀ fuel, push_range growth2 fuel (ctor 1 : ring_queue Nat)
      (iter (List.replicate (SIZE_MOD - 1) 0)) (List.replicate (SIZE_MOD - 1) 0).length =
        none := by
  refine ⟨List.length_replicate _ _, fun fuel => ?_⟩
  rw [List.length_replicate]
  exact push_range_wraps_forever growth2 _ fuel

/-- C4, amended: for every initial capacity `c` and every finite sequence `S` such that
`c + |S|` does not overflow `size_t` and the scaled capacity is a `size_t` value,
`ring_queue(c)` followed by `push_range(S, |S|)` and `pull_range(out, size())` returns
`|S|`, leaves `out[0..|S|)` equal to `S`, and leaves the buffer empty. -/
theorem round_trip [Inhabited α] (growth : Nat → Nat) (c : Nat) (S : List α)
    (out : Nat → α) (fuel : Nat) (hf : 2 ≤ fuel)
    (hm : c + S.length < SIZE_MOD) (hg : growth c < SIZE_MOD) :
    ∃ q1, push_range growth fuel (ctor c) (iter S) S.length = some q1 ∧
      (pull_range q1 out q1.size).2.2 = S.length ∧
      readSeg (pull_range q1 out q1.size).2.1 0 S.length = S ∧
      (pull_range q1 out q1.size).1.empty = true ∧
      (pull_range q1 out q1.size).1.contents = [] := by
  have key : ∀ q1 : ring_queue α, WF q1 → q1.contents = S →
      (pull_range q1 out q1.size).2.2 = S.length ∧
      readSeg (pull_range q1 out q1.size).2.1 0 S.length = S ∧
      (pull_range q1 out q1.size).1.empty = true ∧
      (pull_range q1 out q1.size).1.contents = [] := by
    intro q1 hw hc
    have hl : q1.size = S.length := by rw [← contents_length q1 hw, hc]
    have hcount : (pull_range q1 out q1.size).2.2 = q1.size := by
      rw [pull_range_out_count, peek_range_count, Nat.min_self]
    have htake := peek_range_take q1 hw out q1.size
    rw [Nat.min_self, ← pull_range_out_count, ← contents_length q1 hw, List.take_length,
      contents_length q1 hw] at htake
    obtain ⟨_, _, h3, _⟩ := pull_range_spec q1 hw out q1.size
    have hd : q1.contents.drop q1.size = [] := by
      rw [← contents_length q1 hw, List.drop_length]
    rw [Nat.min_self, hd] at h3
    refine ⟨by rw [hcount, hl], by rw [← hl, htake, hc], ?_, h3⟩
    by_cases hz : q1.is_empty = true
    · rw [pull_range_noop q1 out q1.size (Or.inr hz)]
      exact hz
    · have he : q1.is_empty = false := by simpa using hz
      have hp := size_pos_of_nonempty q1 hw he
      rw [pull_range_state q1 hw out q1.size hp he]
      simp [empty]
  by_cases hn : S.length = 0
  · have hS : S = [] := List.length_eq_zero.mp hn
    subst hS
    refine ⟨ctor c, push_range_zero growth (ctor c) (iter []) fuel (by omega), ?_⟩
    exact key (ctor c) (ctor_wf c) (by simp [contents, ctor])
  · obtain ⟨q1, h1, h2, _, _, h5, _⟩ :=
      push_range_spec growth (ctor c) (ctor_wf c) (iter S) S.length (by omega) hm hg fuel hf
    refine ⟨q1, h1, key q1 h2 ?_⟩
    rw [h5, readSeg_iter S S.length (le_refl _)]
    simp [contents, ctor]

theorem round_trip_witness :
    ∃ q1, push_range growth2 2 (ctor 2) (iter [1, 2, 3]) [1, 2, 3].length = some q1 ∧
      (pull_range q1 zeros q1.size).2.2 = [1, 2, 3].length ∧
      readSeg (pull_range q1 zeros q1.size).2.1 0 [1, 2, 3].length = [1, 2, 3] ∧
      (pull_range q1 zeros q1.size).1.empty = true ∧
      (pull_range q1 zeros q1.size).1.contents = [] :=
  round_trip growth2 2 [1, 2, 3] zeros 2 (by decide) (by decide) (by decide)

theorem peek_range_idem (q : ring_queue α) (h : WF q) (out : Nat → α) (num : Nat) :
    peek_range q (peek_range q out num).2.1 num = peek_range q out num := by
  apply Prod.ext
  · rw [peek_range_state, peek_range_state]
  · apply Prod.ext
    · funext i
      rw [peek_range_out q h, peek_range_out q h]
      split_ifs <;> rfl
    · rw [peek_range_count, peek_range_count]

/-- C5: on every reachable buffer with logical contents `L`, `peek_range(out, num)` returns
`k = min(num, |L|)`, leaves the first `k` elements of `L`, in order, in `out[0..k)`, and
leaves the buffer (`store`, `max`, `bot`, `top`, `is_empty`, hence `size()` and `empty()`)
unchanged; calling it again with the same count, on the destination as the first call left
it, gives the same buffer, count and destination contents. -/
theorem peek_range_reads_front [Inhabited α] (growth : Nat → Nat) (q : ring_queue α)
    (hr : Reachable growth q) (out : Nat → α) (num : Nat) :
    (peek_range q out num).2.2 = min num q.contents.length ∧
    readSeg (peek_range q out num).2.1 0 (min num q.contents.length) =
      q.contents.take (min num q.contents.length) ∧
    (peek_range q out num).1 = q ∧
    (peek_range q out num).1.size = q.size ∧
    (peek_range q out num).1.empty = q.empty ∧
    peek_range (peek_range q out num).1 (peek_range q out num).2.1 num =
      peek_range q out num := by
  have h := hr.wf
  rw [contents_length q h, peek_range_state]
  exact ⟨peek_range_count q out num, peek_range_take q h out num, rfl, rfl, rfl,
    peek_range_idem q h out num⟩

theorem peek_range_reads_front_witness :
    (peek_range ex_wrapped zeros 3).2.2 = min 3 ex_wrapped.contents.length ∧
    readSeg (peek_range ex_wrapped zeros 3).2.1 0 (min 3 ex_wrapped.contents.length) =
      ex_wrapped.contents.take (min 3 ex_wrapped.contents.length) ∧
    (peek_range ex_wrapped zeros 3).1 = ex_wrapped ∧
    (peek_range ex_wrapped zeros 3).1.size = ex_wrapped.size ∧
    (peek_range ex_wrapped zeros 3).1.empty = ex_wrapped.empty ∧
    peek_range (peek_range ex_wrapped zeros 3).1 (peek_range ex_wrapped zeros 3).2.1 3 =
      peek_range ex_wrapped zeros 3 :=
  peek_range_reads_front growth2 ex_wrapped ex_wrapped_reachable zeros 3

/-- C6: on every reachable non-empty buffer, `pull_range(out, n)` with `n >= size()` returns
`size()` and leaves the buffer empty with `bot = top = 0`; with `1 <= n < size()` the
buffer stays non-empty; and in the wrapped branch the value assigned to `bot`,
`(bot + num) % max` for the clamped `num`, equals `top` exactly when all elements are
pulled. -/
theorem pull_range_clamped [Inhabited α] (growth : Nat → Nat) (q : ring_queue α)
    (hr : Reachable growth q) (he : q.is_empty = false) (out : Nat → α) (n : Nat) :
    (q.size ≤ n → (pull_range q out n).2.2 = q.size ∧
      (pull_range q out n).1.is_empty = true ∧
      (pull_range q out n).1.bot = 0 ∧ (pull_range q out n).1.top = 0) ∧
    (1 ≤ n → n < q.size → (pull_range q out n).1.is_empty = false) ∧
    (1 ≤ n → ¬ q.bot < q.top →
      ((q.bot + min n q.size) % q.max = q.top ↔ q.size ≤ n)) := by
  have h := hr.wf
  have hp := size_pos_of_nonempty q h he
  have hb := h.bot_lt he
  have ht := h.top_le he
  have hsm := size_le_max q h
  refine ⟨?_, ?_, ?_⟩
  · intro hn
    have hm : min n q.size = q.size := by omega
    rw [pull_range_out_count, peek_range_count, pull_range_state q h out n (by omega) he,
      if_pos hm]
    exact ⟨hm, rfl, rfl, rfl⟩
  · intro hn1 hn2
    have hm : ¬ min n q.size = q.size := by omega
    rw [pull_range_state q h out n hn1 he, if_neg hm]
  · intro hn hw
    have hsz : q.size = q.max - (q.bot - q.top) := by simp [size, he, hw]
    rw [mod_eq_wrapIdx _ _ _ hb (by omega)]
    unfold wrapIdx
    split_ifs <;> omega

theorem pull_range_clamped_witness :
    (ex_wrapped.size ≤ 9 → (pull_range ex_wrapped zeros 9).2.2 = ex_wrapped.size ∧
      (pull_range ex_wrapped zeros 9).1.is_empty = true ∧
      (pull_range ex_wrapped zeros 9).1.bot = 0 ∧ (pull_range ex_wrapped zeros 9).1.top = 0) ∧
    (1 ≤ 9 → 9 < ex_wrapped.size → (pull_range ex_wrapped zeros 9).1.is_empty = false) ∧
    (1 ≤ 9 → ¬ ex_wrapped.bot < ex_wrapped.top →
      ((ex_wrapped.bot + min 9 ex_wrapped.size) % ex_wrapped.max = ex_wrapped.top ↔
        ex_wrapped.size ≤ 9)) :=
  pull_range_clamped growth2 ex_wrapped ex_wrapped_reachable (by decide) zeros 9

/-- C7: at the reachable wrapped buffer `ex_wrapped` (contents `[3, 4, 5, 6]`),
`pull_range(out, 1)` and `peek_range(out, 1)` return 1 but overwrite the four destination
slots `out[0..4)`; the slots at indices 1, 2 and 3, which held 0, hold 4, 5 and 6
afterwards. -/
theorem wrapped_read_writes_past_count :
    Reachable growth2 ex_wrapped ∧
    ex_wrapped.contents = [3, 4, 5, 6] ∧
    (pull_range ex_wrapped zeros 1).2.2 = 1 ∧
    readSeg zeros 0 4 = [0, 0, 0, 0] ∧
    readSeg (pull_range ex_wrapped zeros 1).2.1 0 4 = [3, 4, 5, 6] ∧
    (peek_range ex_wrapped zeros 1).2.2 = 1 ∧
    readSeg (peek_range ex_wrapped zeros 1).2.1 0 4 = [3, 4, 5, 6] :=
  ⟨ex_wrapped_reachable, by decide, by decide, by decide, by decide, by decide, by decide⟩

/-- C8: for every reachable buffer `other`, the copy constructor yields a buffer with the
logical contents and `size()` of `other` and leaves `other` unchanged; when `other` is
non-empty the copy is non-empty with `max = other.size()`, and when `other` is empty the
copy is empty with `max = 0`. -/
theorem copy_ctor_snapshot [Inhabited α] (growth : Nat → Nat) (other : ring_queue α)
    (hr : Reachable growth other) :
    (copy_ctor other).2.contents = other.contents ∧
    (copy_ctor other).2.size = other.size ∧
    (copy_ctor other).1 = other ∧
    (other.empty = false →
      (copy_ctor other).2.max = other.size ∧ (copy_ctor other).2.empty = false) ∧
    (other.empty = true →
      (copy_ctor other).2.max = 0 ∧ (copy_ctor other).2.empty = true) := by
  have h := hr.wf
  obtain ⟨_, h2, h3⟩ := copy_ctor_spec other h
  refine ⟨h3, h2, ?_, ?_, ?_⟩
  · by_cases hs : other.size = 0
    · rw [copy_ctor_empty other hs]
    · rw [copy_ctor_nonempty other (by omega)]
  · intro he
    have hp := size_pos_of_nonempty other h he
    rw [copy_ctor_nonempty other (by omega)]
    exact ⟨rfl, rfl⟩
  · intro he
    rw [copy_ctor_empty other (size_of_empty other he)]
    exact ⟨rfl, rfl⟩

theorem copy_ctor_snapshot_witness :
    (copy_ctor ex_wrapped).2.contents = ex_wrapped.contents ∧
    (copy_ctor ex_wrapped).2.size = ex_wrapped.size ∧
    (copy_ctor ex_wrapped).1 = ex_wrapped ∧
    (ex_wrapped.empty = false →
      (copy_ctor ex_wrapped).2.max = ex_wrapped.size ∧
      (copy_ctor ex_wrapped).2.empty = false) ∧
    (ex_wrapped.empty = true →
      (copy_ctor ex_wrapped).2.max = 0 ∧ (copy_ctor ex_wrapped).2.empty = true) :=
  copy_ctor_snapshot growth2 ex_wrapped ex_wrapped_reachable

/-- C9: `resize(fin)` returns the value of `max` after the call; when `fin <= max` the
state is unchanged and the old `max` is returned; otherwise the new `max` is at least `fin`
and strictly greater than the old `max`, it is exactly `fin` when the old `max` was 0, and
otherwise it is the larger of `fin` and the scaled old `max`. -/
theorem resize_capacity [Inhabited α] (growth : Nat → Nat) (q : ring_queue α) (fin : Nat) :
    (resize growth q fin).2 = (resize growth q fin).1.max ∧
    (fin ≤ q.max → resize growth q fin = (q, q.max)) ∧
    (q.max < fin →
      fin ≤ (resize growth q fin).1.max ∧ q.max < (resize growth q fin).1.max ∧
      (q.max = 0 → (resize growth q fin).1.max = fin) ∧
      (q.max ≠ 0 → (resize growth q fin).1.max = Nat.max fin (growth q.max))) := by
  refine ⟨?_, resize_noop growth q fin, ?_⟩
  · by_cases hf : fin ≤ q.max
    · rw [resize_noop growth q fin hf]
    · obtain ⟨h1, h2, _⟩ := resize_grow_fields growth q fin (by omega)
      rw [h1, h2]
  · intro hf
    obtain ⟨h1, _⟩ := resize_grow_fields growth q fin hf
    have hge := calc_new_max_size_ge growth q.max fin
    rw [h1]
    refine ⟨hge, by omega, ?_, ?_⟩
    · intro h0
      simp [calc_new_max_size, h0]
    · intro h0
      have h0' : ¬ 0 = q.max := fun e => h0 e.symm
      simp only [calc_new_max_size, h0', if_false]
      split_ifs with hlt
      · exact (Nat.max_eq_left (by omega)).symm
      · exact (Nat.max_eq_right (by omega)).symm

/-- C10: on every reachable buffer with logical contents `L`, `resize(fin)` with
`fin > max` keeps the logical contents `L` and `is_empty`, sets `bot = 0` and `top = |L|`,
and leaves `L` contiguously in `store[0..|L|)`. -/
theorem resize_relocates [Inhabited α] (growth : Nat → Nat) (q : ring_queue α)
    (hr : Reachable growth q) (fin : Nat) (hf : q.max < fin) :
    (resize growth q fin).1.contents = q.contents ∧
    (resize growth q fin).1.is_empty = q.is_empty ∧
    (resize growth q fin).1.bot = 0 ∧
    (resize growth q fin).1.top = q.contents.length ∧
    readSeg (resize growth q fin).1.ring 0 q.contents.length = q.contents := by
  have h := hr.wf
  obtain ⟨_, _, h3, h4, h5⟩ := resize_grow_fields growth q fin hf
  refine ⟨resize_contents growth q h fin, h5, h3, by rw [h4, contents_length q h], ?_⟩
  apply List.ext_getElem?
  intro i
  rw [readSeg_getElem?, contents_getElem? q h, contents_length q h, Nat.zero_add]
  split_ifs with hi
  · rw [resize_grow_ring growth q h fin hf i hi]
  · rfl

theorem resize_relocates_witness :
    (resize growth2 ex_wrapped 5).1.contents = ex_wrapped.contents ∧
    (resize growth2 ex_wrapped 5).1.is_empty = ex_wrapped.is_empty ∧
    (resize growth2 ex_wrapped 5).1.bot = 0 ∧
    (resize growth2 ex_wrapped 5).1.top = ex_wrapped.contents.length ∧
    readSeg (resize growth2 ex_wrapped 5).1.ring 0 ex_wrapped.contents.length =
      ex_wrapped.contents :=
  resize_relocates growth2 ex_wrapped ex_wrapped_reachable 5 (by decide)

theorem wraparound_push (growth : Nat → Nat) (ring : Nat → Nat) (fuel : Nat) :
    push_range growth (fuel + 1) ⟨ring, 4, 2, 4, false⟩ (iter [5, 6]) 2 =
      some ⟨copy_n (iter [5, 6]) 0 2 (copy_n (iter [5, 6]) 0 0 ring 4) 0, 4, 2, 2, false⟩ := by
  have e1 : sub_sz 4 4 = 0 := by decide
  have e2 : add_sz 0 2 = 2 := by decide
  have e3 : sub_sz 2 0 = 2 := by decide
  have e4 : sub_sz 4 2 = 2 := by decide
  simp [push_range, mark_nonempty, e1, e2, e3, e4]

/-- C11: starting from `ring_queue(4)`, `push_range([1,2,3,4], 4)` then `pull_range(out, 2)`
returns 2 with `out = [1,2]`; `push_range([5,6], 2)` then completes without recursion, keeps
`max = 4`, puts 5 and 6 at store offsets 0 and 1 and leaves 3 and 4 at offsets 2 and 3; and
`pull_range(out, 4)` returns 4 with `out = [3,4,5,6]` and leaves the buffer empty. -/
theorem wraparound_scenario (growth : Nat → Nat) (out out' : Nat → Nat) (fuel : Nat) :
    ∃ q1 q3 : ring_queue Nat,
      push_range growth (fuel + 1) (ctor 4) (iter [1, 2, 3, 4]) 4 = some q1 ∧
      (pull_range q1 out 2).2.2 = 2 ∧
      readSeg (pull_range q1 out 2).2.1 0 2 = [1, 2] ∧
      push_range growth (fuel + 1) (pull_range q1 out 2).1 (iter [5, 6]) 2 = some q3 ∧
      q3.max = 4 ∧
      readSeg q3.ring 0 4 = [5, 6, 3, 4] ∧
      (pull_range q3 out' 4).2.2 = 4 ∧
      readSeg (pull_range q3 out' 4).2.1 0 4 = [3, 4, 5, 6] ∧
      (pull_range q3 out' 4).1.empty = true ∧
      (pull_range q3 out' 4).1.size = 0 :=
  ⟨⟨copy_n (iter [1, 2, 3, 4]) 0 4 (fun _ => default) 0, 4, 0, 4, false⟩,
    ⟨copy_n (iter [5, 6]) 0 2
      (copy_n (iter [5, 6]) 0 0 (copy_n (iter [1, 2, 3, 4]) 0 4 (fun _ => default) 0) 4) 0,
      4, 2, 2, false⟩,
    rfl, rfl, rfl, wraparound_push growth _ fuel, rfl, rfl, rfl, rfl, rfl, rfl⟩

/-- C12: on every reachable buffer `empty()` is true exactly when `size()` is 0; a freshly
constructed buffer of any capacity has `empty()` true and `size()` 0; and a reachable buffer
with `is_empty` false has `size()` at least 1. -/
theorem empty_iff_size_zero [Inhabited α] (growth : Nat → Nat) (q : ring_queue α)
    (hr : Reachable growth q) (c : Nat) :
    (q.empty = true ↔ q.size = 0) ∧
    (ctor c : ring_queue α).empty = true ∧
    (ctor c : ring_queue α).size = 0 ∧
    (q.is_empty = false → 1 ≤ q.size) := by
  have h := hr.wf
  refine ⟨⟨fun he => size_of_empty q he, fun hs => ?_⟩, rfl, rfl,
    size_pos_of_nonempty q h⟩
  cases he : q.is_empty
  · have := size_pos_of_nonempty q h he
    omega
  · exact he

theorem empty_iff_size_zero_witness :
    (ex_wrapped.empty = true ↔ ex_wrapped.size = 0) ∧
    (ctor 3 : ring_queue Nat).empty = true ∧
    (ctor 3 : ring_queue Nat).size = 0 ∧
    (ex_wrapped.is_empty = false → 1 ≤ ex_wrapped.size) :=
  empty_iff_size_zero growth2 ex_wrapped ex_wrapped_reachable 3

theorem ex_pushed_reachable : Reachable growth2 ex_pushed :=
  Reachable.push_range 2 (iter [1, 2, 3, 4]) 4 (Reachable.ctor 4) ex_pushed_eq

/-- C13, as stated, fails: `ring_queue(4)` after `push_range([1,2,3,4], 4)` is reachable and
has `max = 4 > 0` with `top = 4`, which is not below `max`. -/
theorem top_reaches_max :
    Reachable growth2 ex_pushed ∧ 0 < ex_pushed.max ∧ ¬ ex_pushed.top < ex_pushed.max :=
  ⟨ex_pushed_reachable, by decide, by decide⟩

/-- C13, amended: in every reachable buffer with `max > 0`, `bot < max` and `top <= max`. -/
theorem index_range [Inhabited α] (growth : Nat → Nat) (q : ring_queue α)
    (hr : Reachable growth q) (hm : 0 < q.max) : q.bot < q.max ∧ q.top ≤ q.max := by
  have h := hr.wf
  cases he : q.is_empty
  · exact ⟨h.bot_lt he, h.top_le he⟩
  · obtain ⟨hb, ht⟩ := h.empty_norm he
    omega

theorem index_range_witness :
    ex_pushed.bot < ex_pushed.max ∧ ex_pushed.top ≤ ex_pushed.max :=
  index_range growth2 ex_pushed ex_pushed_reachable (by decide)

/-- C14, as stated, fails: `ex_wrapped` is reachable and non-empty with `size() = 4`, and
its copy has `top = 0`. -/
theorem copy_ctor_top_not_size :
    Reachable growth2 ex_wrapped ∧ ex_wrapped.is_empty = false ∧ ex_wrapped.size = 4 ∧
    (copy_ctor ex_wrapped).2.top = 0 ∧
    (copy_ctor ex_wrapped).2.top ≠ ex_wrapped.size :=
  ⟨ex_wrapped_reachable, by decide, by decide, by decide, by decide⟩

/-- C14, amended: for every non-empty reachable buffer `other`, the copy-constructed buffer
has `is_empty = false`, `bot = 0`, `top = 0` and `max = other.size()`, so that its `size()`
is `other.size()`. -/
theorem copy_ctor_fields [Inhabited α] (growth : Nat → Nat) (other : ring_queue α)
    (hr : Reachable growth other) (he : other.is_empty = false) :
    (copy_ctor other).2.is_empty = false ∧ (copy_ctor other).2.bot = 0 ∧
    (copy_ctor other).2.top = 0 ∧ (copy_ctor other).2.max = other.size ∧
    (copy_ctor other).2.size = other.size := by
  have h := hr.wf
  have hp := size_pos_of_nonempty other h he
  have hs := (copy_ctor_spec other h).2.1
  rw [copy_ctor_nonempty other (by omega)] at hs ⊢
  exact ⟨rfl, rfl, rfl, rfl, hs⟩

theorem copy_ctor_fields_witness :
    (copy_ctor ex_wrapped).2.is_empty = false ∧ (copy_ctor ex_wrapped).2.bot = 0 ∧
    (copy_ctor ex_wrapped).2.top = 0 ∧ (copy_ctor ex_wrapped).2.max = ex_wrapped.size ∧
    (copy_ctor ex_wrapped).2.size = ex_wrapped.size :=
  copy_ctor_fields growth2 ex_wrapped ex_wrapped_reachable (by decide)

/-- C18: in every reachable buffer, `is_empty = true` implies `bot = 0` and `top = 0`. -/
theorem empty_normalised [Inhabited α] (growth : Nat → Nat) (q : ring_queue α)
    (hr : Reachable growth q) (he : q.is_empty = true) : q.bot = 0 ∧ q.top = 0 :=
  hr.wf.empty_norm he

theorem empty_normalised_witness :
    (pull_range ex_wrapped zeros 4).1.bot = 0 ∧ (pull_range ex_wrapped zeros 4).1.top = 0 :=
  empty_normalised growth2 (pull_range ex_wrapped zeros 4).1
    (Reachable.pull_range zeros 4 ex_wrapped_reachable) (by decide)

/-- C19: in every reachable buffer `size() <= max`, and the subtractions in `size()` do not
underflow: when `is_empty` is false and `bot < top` then `bot <= top`, and when `is_empty`
is false and `bot >= top` then `top <= bot` and `bot - top <= max`. -/
theorem size_within_capacity [Inhabited α] (growth : Nat → Nat) (q : ring_queue α)
    (hr : Reachable growth q) :
    q.size ≤ q.max ∧
    (q.is_empty = false → q.bot < q.top → q.bot ≤ q.top) ∧
    (q.is_empty = false → ¬ q.bot < q.top → q.top ≤ q.bot ∧ q.bot - q.top ≤ q.max) := by
  have h := hr.wf
  refine ⟨size_le_max q h, fun _ hw => by omega, fun he hw => ?_⟩
  have hb := h.bot_lt he
  omega

theorem size_within_capacity_witness :
    ex_wrapped.size ≤ ex_wrapped.max ∧
    (ex_wrapped.is_empty = false → ex_wrapped.bot < ex_wrapped.top →
      ex_wrapped.bot ≤ ex_wrapped.top) ∧
    (ex_wrapped.is_empty = false → ¬ ex_wrapped.bot < ex_wrapped.top →
      ex_wrapped.top ≤ ex_wrapped.bot ∧ ex_wrapped.bot - ex_wrapped.top ≤ ex_wrapped.max) :=
  size_within_capacity growth2 ex_wrapped ex_wrapped_reachable

/-! ## Memory accesses and arithmetic of the member functions -/

theorem size_steps_safe (q : ring_queue α) (h : WF q) (n : Nat) :
    (size_steps q).all (Step.safe n) = true := by
  unfold size_steps
  cases he : q.is_empty
  · have hb := h.bot_lt he
    have ht := h.top_le he
    by_cases hw : q.bot < q.top
    · simp only [Bool.false_eq_true, if_false, hw, if_true, List.all_cons, List.all_nil,
        Step.safe, Bool.and_true, decide_eq_true_eq]
      omega
    · simp only [Bool.false_eq_true, if_false, hw, List.all_cons, List.all_nil,
        Step.safe, Bool.and_true, Bool.and_eq_true, decide_eq_true_eq]
      omega
  · simp

theorem size_steps_no_resize (q : ring_queue α) :
    (size_steps q).countP Step.is_resize = 0 := by
  unfold size_steps
  split_ifs <;> simp [Step.is_resize]

theorem pull_range_steps_safe (q : ring_queue α) (h : WF q) (num n : Nat) :
    (pull_range_steps q num).all (Step.safe n) = true := by
  unfold pull_range_steps
  by_cases hn : 0 = num
  · simp [hn]
  · cases he : q.is_empty
    · have hb := h.bot_lt he
      have ht := h.top_le he
      by_cases hw : q.bot < q.top
      · simp only [hn, Bool.false_eq_true, if_false, hw, if_true, List.all_cons, List.all_nil,
          Step.safe, Bool.and_true, Bool.and_eq_true, decide_eq_true_eq]
        split_ifs <;> omega
      · simp only [hn, Bool.false_eq_true, if_false, hw, List.all_cons, List.all_nil,
          Step.safe, Bool.and_true, Bool.and_eq_true, decide_eq_true_eq, Bool.true_and]
        omega
    · simp [hn]

theorem peek_range_steps_safe (q : ring_queue α) (h : WF q) (num n : Nat) :
    (peek_range_steps q num).all (Step.safe n) = true := by
  unfold peek_range_steps
  by_cases hn : 0 = num
  · simp [hn]
  · cases he : q.is_empty
    · have hb := h.bot_lt he
      have ht := h.top_le he
      by_cases hw : q.bot < q.top
      · simp only [hn, Bool.false_eq_true, if_false, hw, if_true, List.all_cons, List.all_nil,
          Step.safe, Bool.and_true, Bool.and_eq_true, decide_eq_true_eq]
        split_ifs <;> omega
      · simp only [hn, Bool.false_eq_true, if_false, hw, List.all_cons, List.all_nil,
          Step.safe, Bool.and_true, Bool.and_eq_true, decide_eq_true_eq, Bool.true_and]
        omega
    · simp [hn]

theorem resize_steps_safe (growth : Nat → Nat) (q : ring_queue α) (h : WF q) (fin n : Nat) :
    (resize_steps growth q fin).all (Step.safe n) = true := by
  unfold resize_steps
  by_cases hf : fin ≤ q.max
  · simp [hf]
  · have hge := calc_new_max_size_ge growth q.max fin
    simp only [hf, if_false, List.all_append, Bool.and_eq_true, size_steps_safe q h n,
      true_and]
    cases he : q.is_empty
    · have hb := h.bot_lt he
      have ht := h.top_le he
      by_cases hw : q.bot < q.top
      · simp only [Bool.not_false, if_true, hw, List.all_cons, List.all_nil,
          Step.safe, Bool.and_true, Bool.and_eq_true, decide_eq_true_eq]
        omega
      · simp only [Bool.not_false, if_true, hw, if_false, List.all_cons, List.all_nil,
          Step.safe, Bool.and_true, Bool.and_eq_true, decide_eq_true_eq]
        omega
    · simp

theorem resize_steps_no_resize (growth : Nat → Nat) (q : ring_queue α) (fin : Nat) :
    (resize_steps growth q fin).countP Step.is_resize = 0 := by
  unfold resize_steps
  by_cases hf : fin ≤ q.max
  · simp [hf]
  · simp only [hf, if_false, List.countP_append, size_steps_no_resize, Nat.zero_add]
    split_ifs <;> simp [Step.is_resize]

theorem copy_ctor_steps_safe (other : ring_queue α) (h : WF other) (n : Nat) :
    (copy_ctor_steps other).all (Step.safe n) = true := by
  unfold copy_ctor_steps
  simp only [List.all_append, Bool.and_eq_true, size_steps_safe other h n, true_and]
  by_cases hs : other.size > 0
  · have he : other.is_empty = false := by
      cases hq : other.is_empty
      · rfl
      · rw [size_of_empty other hq] at hs
        omega
    have hb := h.bot_lt he
    have ht := h.top_le he
    have hn : ¬ 0 = other.size := by omega
    have hsz : other.size =
        if other.bot < other.top then other.top - other.bot
        else other.max - (other.bot - other.top) := by
      simp [size, he]
    simp only [hs, if_true, peek_range_steps, hn, if_false, he, Bool.false_eq_true]
    by_cases hw : other.bot < other.top
    · simp only [hw, if_true] at hsz ⊢
      simp only [List.map_cons, List.map_nil, Step.into_store, List.all_cons, List.all_nil,
        Step.safe, Bool.and_true, Bool.and_eq_true, decide_eq_true_eq]
      split_ifs <;> omega
    · simp only [hw, if_false] at hsz ⊢
      simp only [List.map_cons, List.map_nil, Step.into_store, List.all_cons, List.all_nil,
        Step.safe, Bool.and_true, Bool.and_eq_true, decide_eq_true_eq]
      omega
  · simp [hs]

theorem push_range_steps_safe [Inhabited α] (growth : Nat → Nat) (num : Nat) :
    ∀ (fuel : Nat) (q : ring_queue α), WF q →
      (push_range_steps growth fuel q num).all (Step.safe num) = true := by
  intro fuel
  induction fuel with
  | zero =>
    intro q _
    rfl
  | succ f ih =>
    intro q h
    have k1 : ∀ fin : Nat, (resize_steps growth q fin).all (Step.safe num) = true :=
      fun fin => resize_steps_safe growth q h fin num
    have k2 : ∀ fin : Nat,
        (push_range_steps growth f (resize growth q fin).1 num).all (Step.safe num) = true :=
      fun fin => ih _ (resize_wf growth q h fin)
    by_cases hn0 : num = 0
    · simp [push_range_steps, hn0]
    · cases he : q.is_empty
      · have hb := h.bot_lt he
        have ht := h.top_le he
        by_cases hw : q.bot < q.top
        · have a1 := sub_sz_le q.max q.top ht
          by_cases hc : sub_sz q.max q.top ≥ num
          · simp only [push_range_steps, hn0, he, hw, hc, if_true, if_false,
              Bool.false_eq_true, List.all_cons, List.all_nil, Step.safe, Bool.and_true,
              Bool.and_eq_true, decide_eq_true_eq]
            omega
          · by_cases hc2 : add_sz (sub_sz q.max q.top) q.bot ≥ num
            · have a2 := add_sz_le (sub_sz q.max q.top) q.bot
              have a3 := sub_sz_le num (sub_sz q.max q.top) (by omega)
              simp only [push_range_steps, hn0, he, hw, hc, hc2, if_true, if_false,
                Bool.false_eq_true, List.all_cons, List.all_nil, Step.safe, Bool.and_true,
                Bool.and_eq_true, decide_eq_true_eq]
              omega
            · simp only [push_range_steps, hn0, he, hw, hc, hc2, if_true, if_false,
                Bool.false_eq_true, List.cons_append, List.all_append, List.all_cons, k1, k2,
                Step.safe, Bool.and_true, Bool.and_eq_true, decide_eq_true_eq]
              omega
        · have a1 := sub_sz_le q.bot q.top (by omega)
          by_cases hc : sub_sz q.bot q.top ≥ num
          · simp only [push_range_steps, hn0, he, hw, hc, if_true, if_false,
              Bool.false_eq_true, List.all_cons, List.all_nil, Step.safe, Bool.and_true,
              Bool.and_eq_true, decide_eq_true_eq]
            omega
          · simp only [push_range_steps, hn0, he, hw, hc, if_true, if_false,
              Bool.false_eq_true, List.cons_append, List.all_append, List.all_cons, k1, k2,
              Step.safe, Bool.and_true, Bool.and_eq_true, decide_eq_true_eq]
            omega
      · by_cases hc : q.max ≥ num
        · simp only [push_range_steps, hn0, he, hc, if_true, if_false, List.all_cons,
            List.all_nil, Step.safe, Bool.and_true, Bool.and_eq_true, decide_eq_true_eq]
          omega
        · simp only [push_range_steps, hn0, he, hc, if_true, if_false, List.cons_append,
            List.all_append, List.all_cons, k1, k2, Step.safe, Bool.and_true]

theorem push_range_steps_fit [Inhabited α] (growth : Nat → Nat) (q : ring_queue α)
    (h : WF q) (num : Nat) (hn : 1 ≤ num) (hfit : q.size + num ≤ q.max)
    (hm : q.max < SIZE_MOD) :
    ∃ t, (∀ fuel, push_range_steps growth (fuel + 1) q num = t) ∧
      t.countP Step.is_resize = 0 ∧
      t.any (Step.writes_other_store q.max) = false := by
  have hn0 : ¬ num = 0 := by omega
  cases he : q.is_empty
  · have hb := h.bot_lt he
    have ht := h.top_le he
    have hsz : q.size = if q.bot < q.top then q.top - q.bot else q.max - (q.bot - q.top) := by
      simp [size, he]
    by_cases hw : q.bot < q.top
    · simp only [hw, if_true] at hsz
      have e1 : sub_sz q.max q.top = q.max - q.top := sub_sz_eq _ _ ht hm
      by_cases hc : q.max - q.top ≥ num
      · refine ⟨[Step.sub q.max q.top, Step.read_input 0 num,
            Step.write_store q.max q.top num], fun fuel => ?_,
          by simp [Step.is_resize], by simp [Step.writes_other_store]⟩
        simp only [push_range_steps, hn0, he, hw, e1, hc, if_true, if_false,
          Bool.false_eq_true]
      · have hc2 : q.max - q.top + q.bot ≥ num := by omega
        have e3 : add_sz (q.max - q.top) q.bot = q.max - q.top + q.bot :=
          add_sz_eq _ _ (by omega)
        refine ⟨[Step.sub q.max q.top, Step.sub q.top q.bot,
            Step.read_input 0 (q.max - q.top), Step.write_store q.max q.top (q.max - q.top),
            Step.sub num (q.max - q.top),
            Step.read_input (q.max - q.top) (sub_sz num (q.max - q.top)),
            Step.write_store q.max 0 (sub_sz num (q.max - q.top)),
            Step.sub num (q.max - q.top)], fun fuel => ?_,
          by simp [Step.is_resize], by simp [Step.writes_other_store]⟩
        simp only [push_range_steps, hn0, he, hw, e1, e3, hc, hc2, if_true, if_false,
          Bool.false_eq_true]
    · simp only [hw, if_false] at hsz
      have hc : q.bot - q.top ≥ num := by omega
      have e1 : sub_sz q.bot q.top = q.bot - q.top := sub_sz_eq _ _ (by omega) (by omega)
      refine ⟨[Step.sub q.bot q.top, Step.read_input 0 num,
          Step.write_store q.max q.top num], fun fuel => ?_,
        by simp [Step.is_resize], by simp [Step.writes_other_store]⟩
      simp only [push_range_steps, hn0, he, hw, e1, hc, if_true, if_false,
        Bool.false_eq_true]
  · have hsz := size_of_empty q he
    have hc : q.max ≥ num := by omega
    refine ⟨[Step.read_input 0 num, Step.write_store q.max 0 num], fun fuel => ?_,
      by simp [Step.is_resize], by simp [Step.writes_other_store]⟩
    simp only [push_range_steps, hn0, he, hc, if_true, if_false]

theorem push_range_steps_grow [Inhabited α] (growth : Nat → Nat) (q : ring_queue α)
    (h : WF q) (num : Nat) (hn : 1 ≤ num) (hfit : ¬ q.size + num ≤ q.max)
    (hm : q.max + num < SIZE_MOD) :
    ∃ fin pre, q.size + num ≤ fin ∧ q.max < fin ∧ fin < SIZE_MOD ∧
      pre.countP Step.is_resize = 0 ∧
      (∀ fuel, push_range_steps growth (fuel + 1) q num =
        pre ++ Step.call_resize fin :: resize_steps growth q fin ++
          push_range_steps growth fuel (resize growth q fin).1 num) ∧
      ∀ (fuel : Nat) (inp : Nat → α), push_range growth (fuel + 1) q inp num =
        (push_range growth fuel (resize growth q fin).1 inp num).map mark_nonempty := by
  have hn0 : ¬ num = 0 := by omega
  cases he : q.is_empty
  · have hb := h.bot_lt he
    have ht := h.top_le he
    have hsz : q.size = if q.bot < q.top then q.top - q.bot else q.max - (q.bot - q.top) := by
      simp [size, he]
    by_cases hw : q.bot < q.top
    · simp only [hw, if_true] at hsz
      have e1 : sub_sz q.max q.top = q.max - q.top := sub_sz_eq _ _ ht (by omega)
      have e2 : sub_sz q.top q.bot = q.top - q.bot := sub_sz_eq _ _ (by omega) (by omega)
      have e3 : add_sz (q.max - q.top) q.bot = q.max - q.top + q.bot :=
        add_sz_eq _ _ (by omega)
      have e4 : add_sz (q.top - q.bot) num = q.top - q.bot + num := add_sz_eq _ _ (by omega)
      have hc : ¬ q.max - q.top ≥ num := by omega
      have hc2 : ¬ q.max - q.top + q.bot ≥ num := by omega
      refine ⟨q.top - q.bot + num, [Step.sub q.max q.top, Step.sub q.top q.bot],
        by omega, by omega, by omega, by simp [Step.is_resize], fun fuel => ?_,
        fun fuel inp => ?_⟩
      · simp only [push_range_steps, hn0, he, hw, e1, e2, e3, e4, hc, hc2, if_false,
          if_true, Bool.false_eq_true, List.cons_append, List.nil_append]
      · simp only [push_range, hn0, he, hw, e1, e2, e3, e4, hc, hc2, if_false, if_true,
          Bool.false_eq_true]
    · simp only [hw, if_false] at hsz
      have e1 : sub_sz q.bot q.top = q.bot - q.top := sub_sz_eq _ _ (by omega) (by omega)
      have e2 : sub_sz q.max (q.bot - q.top) = q.max - (q.bot - q.top) :=
        sub_sz_eq _ _ (by omega) (by omega)
      have e4 : add_sz (q.max - (q.bot - q.top)) num = q.max - (q.bot - q.top) + num :=
        add_sz_eq _ _ (by omega)
      have hc : ¬ q.bot - q.top ≥ num := by omega
      refine ⟨q.max - (q.bot - q.top) + num,
        [Step.sub q.bot q.top, Step.sub q.bot q.top, Step.sub q.max (q.bot - q.top)],
        by omega, by omega, by omega, by simp [Step.is_resize], fun fuel => ?_,
        fun fuel inp => ?_⟩
      · simp only [push_range_steps, hn0, he, hw, e1, e2, e4, hc, if_false,
          Bool.false_eq_true, List.cons_append, List.nil_append]
      · simp only [push_range, hn0, he, hw, e1, e2, e4, hc, if_false, Bool.false_eq_true]
  · have hsz := size_of_empty q he
    have hc : ¬ q.max ≥ num := by omega
    have e4 : add_sz q.max num = q.max + num := add_sz_eq _ _ hm
    refine ⟨q.max + num, [], by omega, by omega, hm, rfl, fun fuel => ?_, fun fuel inp => ?_⟩
    · simp only [push_range_steps, hn0, he, e4, hc, if_false, if_true, List.nil_append]
    · simp only [push_range, hn0, he, e4, hc, if_false, if_true]

theorem push_range_steps_spec [Inhabited α] (growth : Nat → Nat) (q : ring_queue α)
    (h : WF q) (num : Nat) (hn : 1 ≤ num) (hm : q.max + num < SIZE_MOD)
    (hg : growth q.max < SIZE_MOD) :
    (∀ k, push_range_steps growth (2 + k) q num = push_range_steps growth 2 q num) ∧
    (push_range_steps growth 2 q num).countP Step.is_resize =
      (if q.size + num ≤ q.max then 0 else 1) ∧
    (q.size + num ≤ q.max →
      (push_range_steps growth 2 q num).any (Step.writes_other_store q.max) = false) := by
  by_cases hfit : q.size + num ≤ q.max
  · obtain ⟨t, h1, h2, h3⟩ := push_range_steps_fit growth q h num hn hfit (by omega)
    refine ⟨fun k => ?_, ?_, fun _ => ?_⟩
    · rw [show 2 + k = (1 + k) + 1 by omega, h1 (1 + k), h1 1]
    · rw [h1 1, h2, if_pos hfit]
    · rw [h1 1, h3]
  · obtain ⟨fin, pre, hfin, hmax, hlt, hp2, heq, _⟩ :=
      push_range_steps_grow (α := α) growth q h num hn hfit hm
    have hwf2 := resize_wf growth q h fin
    have hs2 := resize_size growth q h fin
    have hm2 := resize_max_ge growth q fin
    have hlt2 : (resize growth q fin).1.max < SIZE_MOD := by
      rw [(resize_grow_fields growth q fin hmax).1]
      exact calc_new_max_size_lt growth q.max fin hg hlt
    obtain ⟨t, h1, h2, _⟩ :=
      push_range_steps_fit growth (resize growth q fin).1 hwf2 num hn (by omega) hlt2
    refine ⟨fun k => ?_, ?_, fun hh => absurd hh hfit⟩
    · rw [show 2 + k = (1 + k) + 1 by omega, heq (1 + k), heq 1,
        show 1 + k = k + 1 by omega, h1 k, h1 0]
    · rw [heq 1, h1 0]
      simp only [List.countP_append, List.countP_cons, hp2, h2,
        resize_steps_no_resize growth q fin, Step.is_resize, if_true, if_neg hfit]

theorem push_range_steps_wraps_forever [Inhabited α] (growth : Nat → Nat) (fuel : Nat) :
    (push_range_steps growth fuel (ctor 1 : ring_queue α) (SIZE_MOD - 1)).countP
      Step.is_resize = fuel := by
  induction fuel with
  | zero => rfl
  | succ f ih =>
    have hS := SIZE_MOD_eq
    have hmax : (ctor 1 : ring_queue α).max = 1 := rfl
    have e1 : add_sz (ctor 1 : ring_queue α).max (SIZE_MOD - 1) = 0 := by
      rw [hmax, add_sz, show 1 + (SIZE_MOD - 1) = SIZE_MOD by omega, Nat.mod_self]
    have e2 : (resize growth (ctor 1 : ring_queue α) 0).1 = ctor 1 := by
      rw [resize_noop growth _ 0 (Nat.zero_le _)]
    have e3 : resize_steps growth (ctor 1 : ring_queue α) 0 = [] := by
      simp [resize_steps]
    have hn0 : ¬ SIZE_MOD - 1 = 0 := by omega
    have hc : ¬ (ctor 1 : ring_queue α).max ≥ SIZE_MOD - 1 := by
      rw [hmax]
      omega
    have he : (ctor 1 : ring_queue α).is_empty = true := rfl
    rw [push_range_steps]
    simp only [hn0, he, hc, if_true, if_false, e1, e2, e3, List.append_nil]
    rw [List.countP_append, ih]
    simp only [List.countP_cons, List.countP_nil, Step.is_resize, if_true]
    omega

/-- C15: in the wrapped-window branch (`is_empty` false, `bot >= top`) with `num >= 1`,
`pull_range` and `peek_range` leave the same destination; it holds the whole tail segment
`store[bot..max)` followed by the whole head segment `store[0..top)`, together
`(max - bot) + top = size()` slots, and is unchanged from index `size()` on, whatever `num`
is; so with `num < size()` the returned count is `num` and the `size() - num` slots from
index `num` on hold the rest of the logical contents. -/
theorem wrapped_read_copies_whole_window [Inhabited α] (growth : Nat → Nat)
    (q : ring_queue α) (hr : Reachable growth q) (he : q.is_empty = false)
    (hw : ¬ q.bot < q.top) (out : Nat → α) (num : Nat) (hn : 1 ≤ num) :
    (q.max - q.bot) + q.top = q.size ∧
    (pull_range q out num).2.1 = (peek_range q out num).2.1 ∧
    readSeg (peek_range q out num).2.1 0 (q.max - q.bot) =
      readSeg q.ring q.bot (q.max - q.bot) ∧
    readSeg (peek_range q out num).2.1 (q.max - q.bot) q.top = readSeg q.ring 0 q.top ∧
    (∀ i, q.size ≤ i → (peek_range q out num).2.1 i = out i) ∧
    (∀ num', 1 ≤ num' → (peek_range q out num').2.1 = (peek_range q out num).2.1) ∧
    ((pull_range_steps q num).map Step.output_count).sum = q.size ∧
    ((peek_range_steps q num).map Step.output_count).sum = q.size ∧
    (num < q.size → (peek_range q out num).2.2 = num ∧
      readSeg (peek_range q out num).2.1 num (q.size - num) = q.contents.drop num) := by
  have h := hr.wf
  have hb := h.bot_lt he
  have ht := h.top_le he
  have hsz : q.size = q.max - (q.bot - q.top) := by simp [size, he, hw]
  have hn0 : ¬ 0 = num := by omega
  have hout : ∀ n, 1 ≤ n → ∀ i, (peek_range q out n).2.1 i =
      if i < q.size then q.ring (wrapIdx q.max q.bot i) else out i := by
    intro n hn1 i
    have hn2 : ¬ n = 0 := by omega
    rw [peek_range_out q h]
    simp only [hn2, he, Bool.false_eq_true, or_self, if_false, hw]
  refine ⟨by omega, ?_, ?_, ?_, ?_, ?_, ?_, ?_, ?_⟩
  · rw [pull_range_out_count]
  · apply readSeg_congr
    intro i hi
    rw [hout num hn, Nat.zero_add, if_pos (by omega)]
    unfold wrapIdx
    rw [if_pos (by omega)]
  · apply readSeg_congr
    intro i hi
    rw [hout num hn, if_pos (by omega)]
    unfold wrapIdx
    rw [if_neg (by omega)]
    congr 1
    omega
  · intro i hi
    rw [hout num hn, if_neg (by omega)]
  · intro n hn1
    funext i
    rw [hout n hn1, hout num hn]
  · simp only [pull_range_steps, hn0, he, hw, if_false, Bool.false_eq_true, List.map_cons,
      List.map_nil, Step.output_count, List.sum_cons, List.sum_nil]
    omega
  · simp only [peek_range_steps, hn0, he, hw, if_false, Bool.false_eq_true, List.map_cons,
      List.map_nil, Step.output_count, List.sum_cons, List.sum_nil]
    omega
  · intro hlt
    refine ⟨by rw [peek_range_count]; omega, ?_⟩
    apply List.ext_getElem?
    intro i
    rw [readSeg_getElem?, List.getElem?_drop, contents_getElem? q h, hout num hn]
    split_ifs <;> first | rfl | omega

theorem wrapped_read_copies_whole_window_witness :
    (ex_wrapped.max - ex_wrapped.bot) + ex_wrapped.top = ex_wrapped.size ∧
    (pull_range ex_wrapped zeros 1).2.1 = (peek_range ex_wrapped zeros 1).2.1 ∧
    readSeg (peek_range ex_wrapped zeros 1).2.1 0 (ex_wrapped.max - ex_wrapped.bot) =
      readSeg ex_wrapped.ring ex_wrapped.bot (ex_wrapped.max - ex_wrapped.bot) ∧
    readSeg (peek_range ex_wrapped zeros 1).2.1 (ex_wrapped.max - ex_wrapped.bot)
      ex_wrapped.top = readSeg ex_wrapped.ring 0 ex_wrapped.top ∧
    (∀ i, ex_wrapped.size ≤ i → (peek_range ex_wrapped zeros 1).2.1 i = zeros i) ∧
    (∀ num', 1 ≤ num' →
      (peek_range ex_wrapped zeros num').2.1 = (peek_range ex_wrapped zeros 1).2.1) ∧
    ((pull_range_steps ex_wrapped 1).map Step.output_count).sum = ex_wrapped.size ∧
    ((peek_range_steps ex_wrapped 1).map Step.output_count).sum = ex_wrapped.size ∧
    (1 < ex_wrapped.size → (peek_range ex_wrapped zeros 1).2.2 = 1 ∧
      readSeg (peek_range ex_wrapped zeros 1).2.1 1 (ex_wrapped.size - 1) =
        ex_wrapped.contents.drop 1) :=
  wrapped_read_copies_whole_window growth2 ex_wrapped ex_wrapped_reachable (by decide)
    (by decide) zeros 1 (by decide)

/-- C16, as stated, fails: on the reachable `ring_queue(1)` with `num = SIZE_MAX >= 1`,
where `size() + num <= max` does not hold, `push_range` returns no state within any
recursion budget and within a budget of `fuel` nested calls it calls `resize` `fuel` times,
so not exactly once. -/
theorem push_range_resizes_without_end :
    Reachable growth2 (ctor 1 : ring_queue Nat) ∧ 1 ≤ SIZE_MOD - 1 ∧
    ¬ (ctor 1 : ring_queue Nat).size + (SIZE_MOD - 1) ≤ (ctor 1 : ring_queue Nat).max ∧
    (∀ fuel, push_range growth2 fuel (ctor 1 : ring_queue Nat) zeros (SIZE_MOD - 1) = none) ∧
    ∀ fuel, (push_range_steps growth2 fuel (ctor 1 : ring_queue Nat) (SIZE_MOD - 1)).countP
      Step.is_resize = fuel := by
  refine ⟨Reachable.ctor 1, size_max_pos, ?_, fun fuel => push_range_wraps_forever growth2 zeros fuel,
    fun fuel => push_range_steps_wraps_forever growth2 fuel⟩
  have h1 : (ctor 1 : ring_queue Nat).size = 0 := rfl
  have h2 : (ctor 1 : ring_queue Nat).max = 1 := rfl
  have h3 := SIZE_MOD_eq
  omega

/-- C16, amended: on every reachable buffer and for `num >= 1` with `max + num` not
overflowing `size_t` and the scaled capacity a `size_t` value, `push_range(in, num)` leaves
`max` unchanged exactly when `size() + num <= max` beforehand; in that case it does not call
`resize` and every store write is to the existing store and within it; otherwise it calls
`resize` exactly once and afterwards `max >= size_before + num`.  The steps counted are all
the steps of the call: a larger recursion budget adds none. -/
theorem push_range_grows_only_when_needed [Inhabited α] (growth : Nat → Nat)
    (q : ring_queue α) (hr : Reachable growth q) (inp : Nat → α) (num : Nat) (hn : 1 ≤ num)
    (hm : q.max + num < SIZE_MOD) (hg : growth q.max < SIZE_MOD)
    (fuel : Nat) (hf : 2 ≤ fuel) :
    ∃ q', push_range growth fuel q inp num = some q' ∧
      (∀ k, push_range_steps growth (fuel + k) q num = push_range_steps growth fuel q num) ∧
      (q'.max = q.max ↔ q.size + num ≤ q.max) ∧
      (q.size + num ≤ q.max →
        (push_range_steps growth fuel q num).countP Step.is_resize = 0 ∧
        (push_range_steps growth fuel q num).any (Step.writes_other_store q.max) = false ∧
        (push_range_steps growth fuel q num).all (Step.safe num) = true) ∧
      (¬ q.size + num ≤ q.max →
        (push_range_steps growth fuel q num).countP Step.is_resize = 1 ∧
        q.size + num ≤ q'.max) := by
  have h := hr.wf
  obtain ⟨q', h1, _, _, _, _, h6, h7, _⟩ :=
    push_range_spec growth q h inp num hn hm hg fuel hf
  obtain ⟨g1, g3, g4⟩ := push_range_steps_spec growth q h num hn hm hg
  have g2 := push_range_steps_safe growth num fuel q h
  obtain ⟨j, rfl⟩ : ∃ j, fuel = 2 + j := ⟨fuel - 2, by omega⟩
  rw [g1 j] at g2 ⊢
  refine ⟨q', h1, fun k => ?_, ⟨fun hmx => ?_, h6⟩, fun hfit => ?_, fun hfit => ?_⟩
  · rw [show 2 + j + k = 2 + (j + k) by omega, g1 (j + k)]
  · omega
  · rw [if_pos hfit] at g3
    exact ⟨g3, g4 hfit, g2⟩
  · rw [if_neg hfit] at g3
    exact ⟨g3, h7⟩

theorem push_range_grows_only_when_needed_witness :
    ∃ q', push_range growth2 2 ex_wrapped (iter [7, 8, 9]) 3 = some q' ∧
      (∀ k, push_range_steps growth2 (2 + k) ex_wrapped 3 =
        push_range_steps growth2 2 ex_wrapped 3) ∧
      (q'.max = ex_wrapped.max ↔ ex_wrapped.size + 3 ≤ ex_wrapped.max) ∧
      (ex_wrapped.size + 3 ≤ ex_wrapped.max →
        (push_range_steps growth2 2 ex_wrapped 3).countP Step.is_resize = 0 ∧
        (push_range_steps growth2 2 ex_wrapped 3).any
          (Step.writes_other_store ex_wrapped.max) = false ∧
        (push_range_steps growth2 2 ex_wrapped 3).all (Step.safe 3) = true) ∧
      (¬ ex_wrapped.size + 3 ≤ ex_wrapped.max →
        (push_range_steps growth2 2 ex_wrapped 3).countP Step.is_resize = 1 ∧
        ex_wrapped.size + 3 ≤ q'.max) :=
  push_range_grows_only_when_needed growth2 ex_wrapped ex_wrapped_reachable (iter [7, 8, 9]) 3
    (by decide) (by decide) (by decide) 2 (by decide)

/-- C17: on every reachable buffer and for every `num` such that `max + num` does not
overflow `size_t` (then `size() + num` does not either) and the scaled capacity is a
`size_t` value, `push_range`, whose sums and differences are wrapping `size_t` operations,
returns with at most one nested self-call: a recursion budget of 2 yields a result, a
larger budget yields the same one, and the result holds the old contents followed by the
`num` inputs; when `num = 0` or `size() + num <= max` a budget of 1 (no self-call)
suffices; otherwise the call is a `resize` to some `fin` followed by the retried call, the
resized buffer has `bot = 0` and a strictly larger `max` of at least `size() + num`, and
the retried call completes without a further self-call. -/
theorem push_range_terminates [Inhabited α] (growth : Nat → Nat) (q : ring_queue α)
    (hr : Reachable growth q) (inp : Nat → α) (num : Nat)
    (hm : q.max + num < SIZE_MOD) (hg : growth q.max < SIZE_MOD) :
    q.size + num < SIZE_MOD ∧
    (∃ q', push_range growth 2 q inp num = some q' ∧
      (∀ k, push_range growth (2 + k) q inp num = some q') ∧
      q'.size = q.size + num ∧ q'.contents = q.contents ++ readSeg inp 0 num) ∧
    (num = 0 ∨ q.size + num ≤ q.max → ∃ q', push_range growth 1 q inp num = some q') ∧
    (1 ≤ num → ¬ q.size + num ≤ q.max →
      ∃ fin, push_range growth 2 q inp num =
          (push_range growth 1 (resize growth q fin).1 inp num).map mark_nonempty ∧
        q.max < (resize growth q fin).1.max ∧
        q.size + num ≤ (resize growth q fin).1.max ∧
        (resize growth q fin).1.size = q.size ∧
        (resize growth q fin).1.bot = 0 ∧
        ∃ q'', push_range growth 1 (resize growth q fin).1 inp num = some q'') := by
  have h := hr.wf
  have hsm := size_le_max q h
  refine ⟨by omega, ?_, ?_, ?_⟩
  · by_cases hn : num = 0
    · subst hn
      have h2 := push_range_zero growth q inp 2 (by omega)
      exact ⟨q, h2, push_range_fuel_irrelevant growth inp 0 q q 2 h2, rfl,
        by rw [readSeg_zero, List.append_nil]⟩
    · obtain ⟨q', h1, _, _, h4, h5, _⟩ :=
        push_range_spec growth q h inp num (by omega) hm hg 2 (le_refl 2)
      exact ⟨q', h1, push_range_fuel_irrelevant growth inp num q q' 2 h1, h4, h5⟩
  · intro hc
    by_cases hn : num = 0
    · subst hn
      exact ⟨q, push_range_zero growth q inp 1 (le_refl 1)⟩
    · have hfit : q.size + num ≤ q.max := by
        rcases hc with hc | hc
        · exact absurd hc hn
        · exact hc
      obtain ⟨q', h1, _⟩ := push_range_fit growth q h inp num (by omega) hfit (by omega) 0
      exact ⟨q', h1⟩
  · intro hn hfit
    obtain ⟨fin, hfin, hmax, hlt, e1⟩ := push_range_grow_eq growth q h inp num hn hfit hm 1
    have hwf2 := resize_wf growth q h fin
    have hs2 := resize_size growth q h fin
    have hm2 := resize_max_ge growth q fin
    obtain ⟨hnm, _, hb, _, _⟩ := resize_grow_fields growth q fin hmax
    have hlt2 : (resize growth q fin).1.max < SIZE_MOD := by
      rw [hnm]
      exact calc_new_max_size_lt growth q.max fin hg hlt
    obtain ⟨q'', h1, _⟩ :=
      push_range_fit growth (resize growth q fin).1 hwf2 inp num hn (by omega) hlt2 0
    exact ⟨fin, e1, by omega, by omega, hs2, hb, q'', h1⟩

theorem push_range_terminates_witness :
    ex_wrapped.size + 3 < SIZE_MOD ∧
    (∃ q', push_range growth2 2 ex_wrapped (iter [7, 8, 9]) 3 = some q' ∧
      (∀ k, push_range growth2 (2 + k) ex_wrapped (iter [7, 8, 9]) 3 = some q') ∧
      q'.size = ex_wrapped.size + 3 ∧
      q'.contents = ex_wrapped.contents ++ readSeg (iter [7, 8, 9]) 0 3) ∧
    (3 = 0 ∨ ex_wrapped.size + 3 ≤ ex_wrapped.max →
      ∃ q', push_range growth2 1 ex_wrapped (iter [7, 8, 9]) 3 = some q') ∧
    (1 ≤ 3 → ¬ ex_wrapped.size + 3 ≤ ex_wrapped.max →
      ∃ fin, push_range growth2 2 ex_wrapped (iter [7, 8, 9]) 3 =
          (push_range growth2 1 (resize growth2 ex_wrapped fin).1 (iter [7, 8, 9]) 3).map
            mark_nonempty ∧
        ex_wrapped.max < (resize growth2 ex_wrapped fin).1.max ∧
        ex_wrapped.size + 3 ≤ (resize growth2 ex_wrapped fin).1.max ∧
        (resize growth2 ex_wrapped fin).1.size = ex_wrapped.size ∧
        (resize growth2 ex_wrapped fin).1.bot = 0 ∧
        ∃ q'', push_range growth2 1 (resize growth2 ex_wrapped fin).1 (iter [7, 8, 9]) 3 =
          some q'') :=
  push_range_terminates growth2 ex_wrapped ex_wrapped_reachable (iter [7, 8, 9]) 3
    (by decide) (by decide)

/-- C20: on every reachable buffer, every store segment read or written by `push_range`,
`pull_range`, `peek_range`, `resize` and the copy constructor ends within the capacity of
the store it touches, every input segment read by `push_range` ends within the first `num`
input elements, no `size_t` subtraction in them underflows, and the remainder in
`pull_range` is not taken by 0.  For `push_range` this holds of the steps performed within
every recursion budget, whether or not the call returns; when `max + num` does not overflow
`size_t` and the scaled capacity is a `size_t` value, a budget of 2 covers all its steps. -/
theorem store_access_safe [Inhabited α] (growth : Nat → Nat) (q : ring_queue α)
    (hr : Reachable growth q) (num n fin : Nat) :
    (∀ fuel, (push_range_steps growth fuel q num).all (Step.safe num) = true) ∧
    (q.max + num < SIZE_MOD → growth q.max < SIZE_MOD →
      ∀ k, push_range_steps growth (2 + k) q num = push_range_steps growth 2 q num) ∧
    (pull_range_steps q n).all (Step.safe 0) = true ∧
    (peek_range_steps q n).all (Step.safe 0) = true ∧
    (resize_steps growth q fin).all (Step.safe 0) = true ∧
    (copy_ctor_steps q).all (Step.safe 0) = true := by
  have h := hr.wf
  refine ⟨fun fuel => push_range_steps_safe growth num fuel q h, fun hm hg k => ?_,
    pull_range_steps_safe q h n 0, peek_range_steps_safe q h n 0,
    resize_steps_safe growth q h fin 0, copy_ctor_steps_safe q h 0⟩
  by_cases hn : num = 0
  · subst hn
    rw [show 2 + k = (1 + k) + 1 by omega]
    simp [push_range_steps]
  · exact (push_range_steps_spec growth q h num (by omega) hm hg).1 k

theorem store_access_safe_witness :
    (∀ fuel, (push_range_steps growth2 fuel ex_wrapped 3).all (Step.safe 3) = true) ∧
    (ex_wrapped.max + 3 < SIZE_MOD → growth2 ex_wrapped.max < SIZE_MOD →
      ∀ k, push_range_steps growth2 (2 + k) ex_wrapped 3 =
        push_range_steps growth2 2 ex_wrapped 3) ∧
    (pull_range_steps ex_wrapped 1).all (Step.safe 0) = true ∧
    (peek_range_steps ex_wrapped 1).all (Step.safe 0) = true ∧
    (resize_steps growth2 ex_wrapped 9).all (Step.safe 0) = true ∧
    (copy_ctor_steps ex_wrapped).all (Step.safe 0) = true :=
  store_access_safe growth2 ex_wrapped ex_wrapped_reachable 3 1 9

end ring_queue

end gRin
